import Mathlib

/-
Shallow embedding of the six-nimmt session server core (src/server/sixnimmt.py).

Conventions of the embedding:
- Python exceptions (IndexError, KeyError, ValueError, deck underflow) are
  modelled by returning `none`; a normal return value `v` is `some v`.
- Python `set` fields (hands, stacks, swept row contents) are `Finset Card`.
- Python `dict` fields (cards_to_play, cards_played) are insertion-ordered
  association lists keyed by the player identifier, as CPython dicts are
  insertion ordered.
- The class `Player` carries a connection; only its id, hand and stack matter
  to the game logic, so a player is `PlayerState` (pid, hand, stack), and the
  session player set is a list in iteration order with pairwise distinct pids.
- `random.sample(DECK, len(DECK))` produces an arbitrary permutation of the
  deck and cards are popped from its end; the embedding passes the sequence of
  cards in pop order as an explicit `deck : List Card` parameter, quantified
  over permutations of the full deck.
- Row indices arriving from outside are Python ints, so they are `Int` here,
  and Python negative-index wrapping of `list[i]` is modelled by `pyIdx`.
-/

/-- DECK = range(1, 105): card values are 1..104. -/
def deckValues : List Nat := (List.range 104).map (fun i => i + 1)

def MIN_PLAYERS : Nat := 2

def MAX_PLAYERS : Nat := 10

def CARDS_PER_PLAYER : Nat := 10

def ROWS : Nat := 4

def COLS : Nat := 5

/-- Card dataclass: a wrapped value. Construction asserts 1 <= value <= 104. -/
structure Card where
  value : Nat
deriving DecidableEq

/-- Full deck as a list of cards in ascending value order. -/
def deckList : List Card := deckValues.map (fun v => ⟨v⟩)

/-- Full deck as a finite set. -/
def fullDeck : Finset Card := deckList.toFinset

/-- Card.score: the cached penalty-score property, translated branch for branch. -/
def Card.score (c : Card) : Nat :=
  if c.value = 55 then 7
  else if c.value % 11 = 0 then 5
  else if c.value % 10 = 0 then 3
  else if c.value % 5 = 0 then 2
  else 1

/-- Position dataclass: row uses Int because explicit rows come from Python ints. -/
structure Position where
  row : Int
  col : Nat
deriving DecidableEq

/-- Python list indexing semantics for `xs[i]` on a list of length n: negative
indices wrap once; out of range yields none (IndexError). -/
def pyIdx (n : Nat) (i : Int) : Option Nat :=
  let j : Int := if i < 0 then i + n else i
  if 0 ≤ j ∧ j < (n : Int) then some j.toNat else none

/-- Board dataclass: `board` is the list of rows, built as `rows` empty lists. -/
structure Board where
  rows : Nat
  cols : Nat
  board : List (List Card)
deriving DecidableEq

/-- Board construction (post-init): rows empty rows. -/
def mkBoard (rows cols : Nat) : Board :=
  { rows := rows, cols := cols, board := List.replicate rows [] }

/-- Board.smallest_card: min(row[-1] for row in self.board). `none` models the
IndexError on an empty row or the ValueError of min on an empty board. -/
def Board.smallest_card (b : Board) : Option Card :=
  match b.board.mapM List.getLast? with
  | none => none
  | some [] => none
  | some (t :: ts) => some (ts.foldl (fun m c => if c.value < m.value then c else m) t)

/-- Board._sweep: stack = set(board[row]); board[row] = [card]; returns
(Position(row, 0), stack). Uses Python indexing on the raw Int row. -/
def Board._sweep (b : Board) (row : Int) (card : Card) :
    Option (Board × Position × Finset Card) :=
  match pyIdx b.board.length row with
  | none => none
  | some r =>
      some ({ b with board := b.board.set r [card] }, ⟨row, 0⟩,
            (b.board.getD r []).toFinset)

/-- Board.is_valid: 0 <= row <= rows - 1 over Python ints. -/
def Board.is_valid (b : Board) (row : Int) : Bool :=
  0 ≤ row && row ≤ (b.rows : Int) - 1

/-- Loop body of Board.where: scan rows keeping the (index, diff) pair with the
smallest diff, earlier index winning ties; `none` models the IndexError raised
by `row[-1]` on an empty row; `some none` is the untouched sys.maxsize
sentinel (no qualifying row). -/
def Board.whereGo (card : Card) :
    List (List Card) → Nat → Option (Nat × Nat) → Option (Option (Nat × Nat))
  | [], _, best => some best
  | r :: rest, idx, best =>
    match r.getLast? with
    | none => none
    | some t =>
      if card.value ≤ t.value then Board.whereGo card rest (idx + 1) best
      else
        match best with
        | none => Board.whereGo card rest (idx + 1) (some (idx, card.value - t.value))
        | some (i, d) =>
          if card.value - t.value < d then
            Board.whereGo card rest (idx + 1) (some (idx, card.value - t.value))
          else Board.whereGo card rest (idx + 1) (some (i, d))

/-- Board.where (named whereRow since `where` is reserved): the returned index,
`some none` standing for the sys.maxsize sentinel. -/
def Board.whereRow (b : Board) (card : Card) : Option (Option Nat) :=
  (Board.whereGo card b.board 0 none).map (fun o => o.map (fun p => p.1))

/-- Board.place: explicit row sweeps unconditionally; otherwise the target row
found by where either overflows (sweep) or receives the appended card. The
sentinel index from where makes `self.board[row]` raise, hence `none`. -/
def Board.place (b : Board) (card : Card) (row : Option Int) :
    Option (Board × Position × Finset Card) :=
  match row with
  | some r => b._sweep r card
  | none =>
    match b.whereRow card with
    | none => none
    | some none => none
    | some (some r) =>
      let rl := b.board.getD r []
      if b.cols ≤ rl.length then b._sweep (r : Int) card
      else some ({ b with board := b.board.set r (rl ++ [card]) },
                 ⟨(r : Int), rl.length⟩, ∅)

/-- Player reduced to its game-relevant state: connection id, hand, stack. -/
structure PlayerState where
  pid : Nat
  hand : Finset Card
  stack : Finset Card
deriving DecidableEq

/-- Player.score: sum of card scores over the stack. -/
def PlayerState.score (p : PlayerState) : Nat :=
  p.stack.sum Card.score

/-- Association-list lookup, modelling `m[k]` returning none on KeyError. -/
def getAssoc {α : Type} (m : List (Nat × α)) (k : Nat) : Option α :=
  (m.find? (fun p => p.1 = k)).map (fun p => p.2)

/-- Association-list store, modelling `m[k] = v` on an insertion-ordered dict:
an existing key keeps its slot, a new key is appended. -/
def setAssoc {α : Type} (m : List (Nat × α)) (k : Nat) (v : α) : List (Nat × α) :=
  if m.any (fun p => p.1 = k) then
    m.map (fun p => if p.1 = k then (k, v) else p)
  else m ++ [(k, v)]

/-- Update every member with the given pid (pids are pairwise distinct in
reachable sessions, so at most one member changes). -/
def updatePlayer (ps : List PlayerState) (pid : Nat) (f : PlayerState → PlayerState) :
    List PlayerState :=
  ps.map (fun p => if p.pid = pid then f p else p)

/-- Session dataclass. Field defaults mirror the dataclass defaults; the board
default_factory builds the 4 x 5 board. -/
structure Session where
  session_id : String
  players : List PlayerState := []
  board : Board := mkBoard ROWS COLS
  cards_per_player : Nat := CARDS_PER_PLAYER
  min_players : Nat := MIN_PLAYERS
  max_players : Nat := MAX_PLAYERS
  started : Bool := false
  smallest_card_player : Option Nat := none
  selected_row : Option Int := none
  cards_to_play : List (Nat × Card) := []
  cards_played : List (Nat × Card × Position) := []
  progressed : Bool := false
deriving DecidableEq

/-- Session construction with only the id, as the handler does (Game(session_id)). -/
def initSession (sid : String) : Session :=
  { session_id := sid }

/-- Session.should_start, condition for condition. Python takes len over the
player set; reachable sessions keep pids pairwise distinct so list length
agrees with set size. -/
def Session.should_start (s : Session) : Bool :=
  !(s.players.length < s.min_players) &&
  !(s.players.length > s.max_players) &&
  !(s.players.any (fun p => p.hand.card > 0)) &&
  !(s.board.board.any (fun row => row.length > 0)) &&
  !s.started

/-- Session.should_progress: started, not progressed, submitted keys equal the
member set, all hands the same size, and a selected row whenever a smallest
card player is tracked. -/
def Session.should_progress (s : Session) : Bool :=
  s.started &&
  !s.progressed &&
  decide ((s.players.map (fun p => p.pid)).toFinset = (s.cards_to_play.map (fun q => q.1)).toFinset) &&
  !((s.players.map (fun p => p.hand.card)).toFinset.card > 1) &&
  !(s.smallest_card_player.isSome && s.selected_row.isNone)

/-- Session.should_end: started and every hand empty. -/
def Session.should_end (s : Session) : Bool :=
  s.started && s.players.all (fun p => p.hand.card = 0)

/-- One inner dealing loop of Session._deal: each player in order pops one card
into their hand; `none` models deck underflow (pop from an empty list). -/
def dealToPlayers : List PlayerState → List Card → Option (List PlayerState × List Card)
  | [], deck => some ([], deck)
  | _ :: _, [] => none
  | p :: ps, c :: deck =>
    match dealToPlayers ps deck with
    | none => none
    | some (ps', deck') => some ({ p with hand := insert c p.hand } :: ps', deck')

/-- Outer dealing loop of Session._deal: cards_per_player rounds. -/
def dealRounds : Nat → List PlayerState → List Card → Option (List PlayerState × List Card)
  | 0, ps, deck => some (ps, deck)
  | n + 1, ps, deck =>
    match dealToPlayers ps deck with
    | none => none
    | some (ps', deck') => dealRounds n ps' deck'

/-- Board-filling loop of Session._deal: for each row index pop one card and
place it with that explicit row; the swept set is discarded as in the source. -/
def dealBoardRows : Board → List Card → Nat → Nat → Option (Board × List Card)
  | b, deck, _, 0 => some (b, deck)
  | _, [], _, _ + 1 => none
  | b, c :: deck, r, n + 1 =>
    match b.place c (some (r : Int)) with
    | none => none
    | some (b', _, _) => dealBoardRows b' deck (r + 1) n

/-- Session._deal given the popped-order shuffled deck. -/
def Session._deal (s : Session) (deck : List Card) : Option Session :=
  match dealRounds s.cards_per_player s.players deck with
  | none => none
  | some (ps, deck') =>
    match dealBoardRows s.board deck' 0 s.board.rows with
    | none => none
    | some (b, _) => some { s with players := ps, board := b }

/-- Session.add: a started or full session rejects; adding a present pid is the
no-op success of set.add; otherwise the player joins. -/
def Session.add (s : Session) (p : PlayerState) : Bool × Session :=
  if s.started then (false, s)
  else if s.players.length ≥ s.max_players then (false, s)
  else if s.players.any (fun q => q.pid = p.pid) then (true, s)
  else (true, { s with players := s.players ++ [p] })

/-- Session.remove: set.remove semantics, KeyError reported as false. -/
def Session.remove (s : Session) (pid : Nat) : Bool × Session :=
  if s.players.any (fun q => q.pid = pid) then
    (true, { s with players := s.players.filter (fun q => q.pid ≠ pid) })
  else (false, s)

/-- Session.play. Guard order follows the source: started, not progressed, not
yet submitted, card held (Player.play). On success the hand loses the card,
cards_to_play gains it, and the two smallest-card-player conditionals run in
sequence over the updated mapping; `none` models the exceptions the source can
raise there (min over a row-less board, KeyError on a stale tracked player).
A pid with no member is a fresh connection-level Player whose empty hand makes
Player.play fail. -/
def Session.play (s : Session) (pid : Nat) (card : Card) : Option (Bool × Session) :=
  if !s.started then some (false, s)
  else if s.progressed then some (false, s)
  else if s.cards_to_play.any (fun q => q.1 = pid) then some (false, s)
  else
    match s.players.find? (fun p => p.pid = pid) with
    | none => some (false, s)
    | some p =>
      if card ∉ p.hand then some (false, s)
      else
        let s1 := { s with
          players := updatePlayer s.players pid (fun q => { q with hand := q.hand.erase card }),
          cards_to_play := setAssoc s.cards_to_play pid card }
        let step1 : Option (Option Nat) :=
          match s.smallest_card_player with
          | some h => some (some h)
          | none =>
            match s.board.smallest_card with
            | none => none
            | some m => some (if card.value < m.value then some pid else none)
        match step1 with
        | none => none
        | some h1 =>
          match h1 with
          | none => some (true, { s1 with smallest_card_player := none })
          | some h =>
            match getAssoc s1.cards_to_play h with
            | none => none
            | some ch =>
              some (true, { s1 with smallest_card_player :=
                if card.value < ch.value then some pid else some h })

/-- Session.select, guard for guard; comparing the caller against an unset
smallest_card_player always fails, as Player never equals None. -/
def Session.select (s : Session) (pid : Nat) (row : Int) : Bool × Session :=
  if !s.should_progress then (false, s)
  else if s.smallest_card_player ≠ some pid then (false, s)
  else if s.selected_row ≠ none then (false, s)
  else if !(s.board.is_valid row) then (false, s)
  else (true, { s with selected_row := some row })

/-- Total preorder used by sorted(..., key=lambda m: m[1]) in Session.progress:
compare submissions by card value. Python sorted is stable, as insertionSort
with a non-strict comparison is. -/
def playLE (a b : Nat × Card) : Prop := a.2.value ≤ b.2.value

instance : DecidableRel playLE := fun a b => Nat.decLe a.2.value b.2.value

instance : IsTotal (Nat × Card) playLE := ⟨fun a b => Nat.le_total a.2.value b.2.value⟩

instance : IsTrans (Nat × Card) playLE := ⟨fun _ _ _ h1 h2 => Nat.le_trans h1 h2⟩

/-- Placement loop of Session.progress over the sorted submissions: index 0
uses the selected row, later indices place automatically; each swept set joins
the stack of the player who placed, and cards_played records (card, position). -/
def placeLoop (selRow : Option Int) :
    Board → List PlayerState → List (Nat × Card × Position) → List (Nat × Card) → Nat →
    Option (Board × List PlayerState × List (Nat × Card × Position))
  | b, ps, played, [], _ => some (b, ps, played)
  | b, ps, played, (pid, card) :: rest, idx =>
    match b.place card (if idx = 0 then selRow else none) with
    | none => none
    | some (b', pos, stack) =>
      placeLoop selRow b'
        (updatePlayer ps pid (fun p => { p with stack := p.stack ∪ stack }))
        (setAssoc played pid (card, pos)) rest (idx + 1)

/-- Session.progress: guard, sort, placement loop, progressed flag. -/
def Session.progress (s : Session) : Option (Bool × Session) :=
  if !s.should_progress then some (false, s)
  else
    match placeLoop s.selected_row s.board s.players s.cards_played
        (List.insertionSort playLE s.cards_to_play) 0 with
    | none => none
    | some (b, ps, played) =>
      some (true, { s with board := b, players := ps, cards_played := played,
                           progressed := true })

/-- Session.start: guard then deal then the started flag. -/
def Session.start (s : Session) (deck : List Card) : Option (Bool × Session) :=
  if !s.should_start then some (false, s)
  else
    match s._deal deck with
    | none => none
    | some s' => some (true, { s' with started := true })

/-- Session.reset: guard then clearing of the five turn-scoped fields. -/
def Session.reset (s : Session) : Bool × Session :=
  if !s.progressed then (false, s)
  else (true, { s with smallest_card_player := none, selected_row := none,
                       cards_to_play := [], cards_played := [], progressed := false })

/-- Cards lying on the board. -/
def boardCards (b : Board) : Finset Card :=
  b.board.foldr (fun row acc => row.toFinset ∪ acc) ∅

/-- Cards held in hands. -/
def handCards (ps : List PlayerState) : Finset Card :=
  ps.foldr (fun p acc => p.hand ∪ acc) ∅

/-- Cards collected in stacks. -/
def stackCards (ps : List PlayerState) : Finset Card :=
  ps.foldr (fun p acc => p.stack ∪ acc) ∅

/-- Cards sitting in the cards_to_play buffer. -/
def toPlayCards (m : List (Nat × Card)) : Finset Card :=
  (m.map (fun q => q.2)).toFinset

/-- Board plus hands plus stacks, the union named by the conservation claim. -/
def sessionCards3 (s : Session) : Finset Card :=
  boardCards s.board ∪ handCards s.players ∪ stackCards s.players

/-- Board plus hands plus stacks plus pending submissions. -/
def sessionCards4 (s : Session) : Finset Card :=
  sessionCards3 s ∪ toPlayCards s.cards_to_play

/-- Reachable session states: the handler creates sessions with only an id,
adds freshly constructed players (empty hand and stack), and otherwise calls
the public operations; start receives an arbitrary permutation of the deck. -/
inductive Reachable : Session → Prop
  | init (sid : String) : Reachable (initSession sid)
  | add {s : Session} (p : PlayerState) {r : Bool × Session} :
      Reachable s → p.hand = ∅ → p.stack = ∅ → Session.add s p = r → Reachable r.2
  | remove {s : Session} (pid : Nat) {r : Bool × Session} :
      Reachable s → Session.remove s pid = r → Reachable r.2
  | start {s : Session} (deck : List Card) {b : Bool} {s' : Session} :
      Reachable s → deck.Perm deckList → Session.start s deck = some (b, s') →
      Reachable s'
  | play {s : Session} (pid : Nat) (card : Card) {b : Bool} {s' : Session} :
      Reachable s → Session.play s pid card = some (b, s') → Reachable s'
  | select {s : Session} (pid : Nat) (row : Int) {r : Bool × Session} :
      Reachable s → Session.select s pid row = r → Reachable r.2
  | progress {s : Session} {b : Bool} {s' : Session} :
      Reachable s → Session.progress s = some (b, s') → Reachable s'
  | reset {s : Session} {r : Bool × Session} :
      Reachable s → Session.reset s = r → Reachable r.2

/-- Concrete scenario board with row tails 5, 23, 61, 98, used by claim C4. -/
def exampleBoard : Board :=
  { rows := 4, cols := 5, board := [[⟨5⟩], [⟨23⟩], [⟨61⟩], [⟨98⟩]] }

/-- Concrete scenario session for claim C6: player A (pid 0) holds the 10,
player B (pid 1) holds the 2, all board tails are above both. -/
def sAB : Session :=
  { session_id := "t",
    players := [⟨0, {⟨10⟩}, ∅⟩, ⟨1, {⟨2⟩}, ∅⟩],
    board := { rows := 4, cols := 5, board := [[⟨20⟩], [⟨30⟩], [⟨40⟩], [⟨50⟩]] },
    started := true }

/-- C8: for every card value in the deck range the score is 7 on the special
value 55, else 5 on multiples of 11, else 3 on multiples of 10, else 2 on
multiples of 5, else 1, checked in exactly this priority order. -/
theorem score_table (c : Card) (hlo : 1 ≤ c.value) (hhi : c.value ≤ 104) :
    (c.value = 55 → c.score = 7) ∧
    (c.value ≠ 55 → c.value % 11 = 0 → c.score = 5) ∧
    (c.value ≠ 55 → c.value % 11 ≠ 0 → c.value % 10 = 0 → c.score = 3) ∧
    (c.value ≠ 55 → c.value % 11 ≠ 0 → c.value % 10 ≠ 0 → c.value % 5 = 0 → c.score = 2) ∧
    (c.value ≠ 55 → c.value % 11 ≠ 0 → c.value % 10 ≠ 0 → c.value % 5 ≠ 0 → c.score = 1) := by
  unfold Card.score
  refine ⟨fun h => by simp [h], fun h1 h2 => by simp [h1, h2], fun h1 h2 h3 => by simp [h1, h2, h3],
    fun h1 h2 h3 h4 => by simp [h1, h2, h3, h4], fun h1 h2 h3 h4 => by simp [h1, h2, h3, h4]⟩

/-- Witness for C8: the special value 55 is divisible by 11 yet scores 7, and
44 scores 5. -/
theorem score_table_witness : Card.score ⟨55⟩ = 7 ∧ Card.score ⟨44⟩ = 5 :=
  ⟨(score_table ⟨55⟩ (by decide) (by decide)).1 rfl,
   (score_table ⟨44⟩ (by decide) (by decide)).2.1 (by decide) (by decide)⟩

/-- Concrete state the claim expects select to accept: every player has played,
player 0 holds the lowest submitted card, no row selected yet, row 2 valid. -/
def selReady : Session :=
  { session_id := "w",
    players := [⟨0, {⟨9⟩}, ∅⟩],
    board := { rows := 4, cols := 5, board := [[⟨20⟩], [⟨30⟩], [⟨40⟩], [⟨50⟩]] },
    started := true,
    smallest_card_player := some 0,
    cards_to_play := [(0, ⟨2⟩)] }

/-- C1: the four stated success conditions of select are jointly unsatisfiable,
because should_progress is false exactly when a smallest card player is
tracked while selected_row is still unset, yet select also demands a tracked
smallest card player and an unset selected_row. Hence select always fails and
never records anything, even in the state the claim describes. -/
theorem select_never_succeeds :
    (∀ (s : Session) (pid : Nat) (row : Int), Session.select s pid row = (false, s)) ∧
    Session.select selReady 0 2 = (false, selReady) := by
  constructor
  · intro s pid row
    unfold Session.select
    by_cases h1 : s.should_progress
    · by_cases h2 : s.smallest_card_player = some pid
      · have h3 : s.selected_row ≠ none := by
          intro hnone
          unfold Session.should_progress at h1
          rw [h2, hnone] at h1
          simp at h1
        simp [h1, h2, h3]
      · simp [h1, h2]
    · simp [h1]
  · decide

/-- Helper: add either rejects unchanged or succeeds. -/
lemma add_false_eq (s : Session) (p : PlayerState) :
    (Session.add s p).1 = false → (Session.add s p).2 = s := by
  unfold Session.add
  split_ifs <;> simp

/-- Helper: remove rejects unchanged on a missing member. -/
lemma remove_false_eq (s : Session) (pid : Nat) :
    (Session.remove s pid).1 = false → (Session.remove s pid).2 = s := by
  unfold Session.remove
  split_ifs <;> simp

/-- Helper: reset rejects unchanged when the turn has not progressed. -/
lemma reset_false_eq (s : Session) :
    (Session.reset s).1 = false → (Session.reset s).2 = s := by
  unfold Session.reset
  split_ifs <;> simp

/-- Helper: select always fails and leaves the session unchanged, since its
guards are jointly unsatisfiable. -/
lemma select_always_false (s : Session) (pid : Nat) (row : Int) :
    Session.select s pid row = (false, s) := by
  unfold Session.select
  by_cases h1 : s.should_progress
  · by_cases h2 : s.smallest_card_player = some pid
    · have h3 : s.selected_row ≠ none := by
        intro hnone
        unfold Session.should_progress at h1
        rw [h2, hnone] at h1
        simp at h1
      simp [h1, h2, h3]
    · simp [h1, h2]
  · simp [h1]

/-- Helper: storing a key and looking it up returns the stored value. -/
lemma getAssoc_setAssoc_self {α : Type} (m : List (Nat × α)) (k : Nat) (v : α) :
    getAssoc (setAssoc m k v) k = some v := by
  unfold getAssoc setAssoc
  by_cases hk : m.any (fun p => p.1 = k)
  · simp only [hk, if_true]
    induction m with
    | nil => simp at hk
    | cons a t ih =>
      by_cases ha : a.1 = k
      · simp [ha]
      · simp only [List.any_cons] at hk
        rcases Bool.or_eq_true_iff.mp hk with h | h
        · exact absurd (by simpa using h) ha
        · simpa [ha] using ih h
  · simp only [hk, Bool.false_eq_true, if_false]
    rw [List.find?_append]
    have hfind : m.find? (fun p => decide (p.1 = k)) = none := by
      rw [List.find?_eq_none]
      intro q hq
      simp only [List.any_eq_true] at hk
      push_neg at hk
      simpa using hk q hq
    simp [hfind]

/-- Helper: a false result of start can only come from the guard. -/
lemma start_false_eq (s : Session) (deck : List Card) (s' : Session) :
    Session.start s deck = some (false, s') → s' = s := by
  intro h
  unfold Session.start at h
  by_cases hg : s.should_start
  · simp only [hg, Bool.not_true, Bool.false_eq_true, if_false] at h
    cases hd : s._deal deck with
    | none => rw [hd] at h; exact absurd h (by simp)
    | some t => rw [hd] at h; simp at h
  · simp [hg] at h
    exact h.symm

/-- Helper: a false result of progress can only come from the guard. -/
lemma progress_false_eq (s : Session) (s' : Session) :
    Session.progress s = some (false, s') → s' = s := by
  intro h
  unfold Session.progress at h
  by_cases hg : s.should_progress
  · simp only [hg, Bool.not_true, Bool.false_eq_true, if_false] at h
    cases hp : placeLoop s.selected_row s.board s.players s.cards_played
        (List.insertionSort playLE s.cards_to_play) 0 with
    | none => rw [hp] at h; exact absurd h (by simp)
    | some t => rw [hp] at h; simp at h
  · simp [hg] at h
    exact h.symm

/-- Helper: play either rejects with the unchanged session, succeeds, or
raises. -/
lemma play_cases (s : Session) (pid : Nat) (card : Card) :
    Session.play s pid card = some (false, s) ∨
    (∃ s', Session.play s pid card = some (true, s')) ∨
    Session.play s pid card = none := by
  unfold Session.play
  by_cases h1 : s.started
  · by_cases h2 : s.progressed
    · simp [h1, h2]
    · by_cases h3 : s.cards_to_play.any (fun q => q.1 = pid)
      · simp [h1, h2, h3]
      · cases hf : s.players.find? (fun p => p.pid = pid) with
        | none => simp [h1, h2, h3, hf]
        | some p =>
          by_cases h4 : card ∈ p.hand
          · simp only [h1, h2, h3, hf, h4]
            cases hsc : s.smallest_card_player with
            | some h =>
              simp only [hsc]
              cases hg : getAssoc (setAssoc s.cards_to_play pid card) h <;>
                simp [hg]
            | none =>
              simp only [hsc]
              cases hm : s.board.smallest_card with
              | none => simp [hm]
              | some m =>
                by_cases hlt : card.value < m.value <;>
                  simp [hm, hlt, getAssoc_setAssoc_self]
          · simp [h1, h2, h3, hf, h4]
  · simp [h1]

/-- Helper: a false result of play leaves the session unchanged. -/
lemma play_false_eq (s : Session) (pid : Nat) (card : Card) (s' : Session) :
    Session.play s pid card = some (false, s') → s' = s := by
  intro h
  rcases play_cases s pid card with hc | ⟨t, hc⟩ | hc
  · rw [hc] at h
    simp at h
    exact h.symm
  · rw [hc] at h
    simp at h
  · rw [hc] at h
    exact absurd h (by simp)

/-- C9: every operation that returns false leaves every component of the
session state exactly as it was: no partial mutation on a guard violation. -/
theorem failure_no_mutation :
    (∀ (s : Session) (p : PlayerState), (Session.add s p).1 = false → (Session.add s p).2 = s) ∧
    (∀ (s : Session) (pid : Nat), (Session.remove s pid).1 = false → (Session.remove s pid).2 = s) ∧
    (∀ (s : Session) (deck : List Card) (s' : Session),
      Session.start s deck = some (false, s') → s' = s) ∧
    (∀ (s : Session) (pid : Nat) (card : Card) (s' : Session),
      Session.play s pid card = some (false, s') → s' = s) ∧
    (∀ (s : Session) (pid : Nat) (row : Int),
      (Session.select s pid row).1 = false → (Session.select s pid row).2 = s) ∧
    (∀ (s : Session) (s' : Session), Session.progress s = some (false, s') → s' = s) ∧
    (∀ s : Session, (Session.reset s).1 = false → (Session.reset s).2 = s) :=
  ⟨add_false_eq, remove_false_eq, start_false_eq, play_false_eq,
   fun s pid row _ => by rw [select_always_false s pid row],
   progress_false_eq, reset_false_eq⟩

/-- Witness for C9: playing into a session that has not started is rejected
and the session value is unchanged. -/
theorem failure_no_mutation_witness :
    ((Session.play (initSession "z") 0 ⟨5⟩).getD (false, initSession "z")).2 = initSession "z" :=
  failure_no_mutation.2.2.2.1 (initSession "z") 0 ⟨5⟩ _ rfl

/-- Helper: full characterization of the scanning loop of Board.where. With all
rows non-empty the loop never raises; the result is the best of the incoming
candidate and the qualifying rows, minimizing the value difference with ties
going to the earliest position. -/
lemma whereGo_spec (card : Card) :
    ∀ (rows : List (List Card)) (idx : Nat) (best : Option (Nat × Nat)),
    (∀ r ∈ rows, r ≠ []) →
    (∀ i d, best = some (i, d) → i < idx) →
    ∃ res, Board.whereGo card rows idx best = some res ∧
      ((res = none ∧ best = none ∧
        ∀ k, k < rows.length → ∀ t, (rows.getD k []).getLast? = some t →
          card.value ≤ t.value) ∨
       (∃ i d, res = some (i, d) ∧
        (best = some (i, d) ∨
         ∃ k t, k < rows.length ∧ idx + k = i ∧ (rows.getD k []).getLast? = some t ∧
           t.value < card.value ∧ d = card.value - t.value) ∧
        (∀ i0 d0, best = some (i0, d0) → d < d0 ∨ (d = d0 ∧ i ≤ i0)) ∧
        (∀ k t, k < rows.length → (rows.getD k []).getLast? = some t →
          t.value < card.value →
          d < card.value - t.value ∨ (d = card.value - t.value ∧ i ≤ idx + k)))) := by
  intro rows
  induction rows with
  | nil =>
    intro idx best _ hb
    refine ⟨best, rfl, ?_⟩
    cases best with
    | none => exact Or.inl ⟨rfl, rfl, by intro k hk; simp at hk⟩
    | some p =>
      obtain ⟨pi, pd⟩ := p
      refine Or.inr ⟨pi, pd, rfl, Or.inl rfl, ?_, ?_⟩
      · intro i0 d0 h0
        cases h0
        exact Or.inr ⟨rfl, Nat.le_refl _⟩
      · intro k t' hk
        simp at hk
  | cons r rest ih =>
    intro idx best hne hb
    cases hr : r.getLast? with
    | none =>
      exact absurd (List.getLast?_eq_none_iff.mp hr) (hne r (List.mem_cons_self r rest))
    | some t =>
      have hne' : ∀ q ∈ rest, q ≠ [] := fun q hq => hne q (List.mem_cons_of_mem r hq)
      by_cases hle : card.value ≤ t.value
      · have hstep : Board.whereGo card (r :: rest) idx best =
            Board.whereGo card rest (idx + 1) best := by
          simp [Board.whereGo, hr, hle]
        obtain ⟨res, heq, hchar⟩ := ih (idx + 1) best hne'
          (fun i d h => Nat.lt_succ_of_lt (hb i d h))
        refine ⟨res, hstep.trans heq, ?_⟩
        rcases hchar with ⟨h1, h2, h3⟩ | ⟨i, d, h1, h2, h3, h4⟩
        · refine Or.inl ⟨h1, h2, ?_⟩
          intro k hk t' ht'
          cases k with
          | zero =>
            simp only [List.getD_cons_zero] at ht'
            rw [hr] at ht'
            cases ht'
            exact hle
          | succ k =>
            simp only [List.getD_cons_succ] at ht'
            exact h3 k (by simpa using hk) t' ht'
        · refine Or.inr ⟨i, d, h1, ?_, h3, ?_⟩
          · rcases h2 with h2 | ⟨k, t', hk, hik, ht', hlt', hd⟩
            · exact Or.inl h2
            · exact Or.inr ⟨k + 1, t', by simpa using hk, by omega,
                by simpa using ht', hlt', hd⟩
          · intro k t' hk ht' hlt'
            cases k with
            | zero =>
              simp only [List.getD_cons_zero] at ht'
              rw [hr] at ht'
              cases ht'
              omega
            | succ k =>
              have := h4 k t' (by simpa using hk) (by simpa using ht') hlt'
              rcases this with h | ⟨h, h'⟩
              · exact Or.inl h
              · exact Or.inr ⟨h, by omega⟩
      · have hlt : t.value < card.value := Nat.lt_of_not_le hle
        cases best with
        | none =>
          have hstep : Board.whereGo card (r :: rest) idx none =
              Board.whereGo card rest (idx + 1) (some (idx, card.value - t.value)) := by
            simp [Board.whereGo, hr, hle]
          obtain ⟨res, heq, hchar⟩ := ih (idx + 1) (some (idx, card.value - t.value)) hne'
            (fun i d h => by cases h; omega)
          refine ⟨res, hstep.trans heq, ?_⟩
          rcases hchar with ⟨_, h2, _⟩ | ⟨i, d, h1, h2, h3, h4⟩
          · cases h2
          · refine Or.inr ⟨i, d, h1, ?_, ?_, ?_⟩
            · rcases h2 with h2 | ⟨k, t', hk, hik, ht', hlt', hd⟩
              · cases h2
                exact Or.inr ⟨0, t, by simp, by omega, by simpa using hr, hlt, rfl⟩
              · exact Or.inr ⟨k + 1, t', by simpa using hk, by omega,
                  by simpa using ht', hlt', hd⟩
            · intro i0 d0 h0
              cases h0
            · intro k t' hk ht' hlt'
              cases k with
              | zero =>
                simp only [List.getD_cons_zero] at ht'
                rw [hr] at ht'
                cases ht'
                have := h3 idx (card.value - t.value) rfl
                rcases this with h | ⟨h, h'⟩
                · exact Or.inl h
                · exact Or.inr ⟨h, by omega⟩
              | succ k =>
                have := h4 k t' (by simpa using hk) (by simpa using ht') hlt'
                rcases this with h | ⟨h, h'⟩
                · exact Or.inl h
                · exact Or.inr ⟨h, by omega⟩
        | some p =>
          obtain ⟨i0, d0⟩ := p
          have hi0 : i0 < idx := hb i0 d0 rfl
          by_cases hdlt : card.value - t.value < d0
          · have hstep : Board.whereGo card (r :: rest) idx (some (i0, d0)) =
                Board.whereGo card rest (idx + 1) (some (idx, card.value - t.value)) := by
              simp [Board.whereGo, hr, hle, hdlt]
            obtain ⟨res, heq, hchar⟩ := ih (idx + 1) (some (idx, card.value - t.value)) hne'
              (fun i d h => by cases h; omega)
            refine ⟨res, hstep.trans heq, ?_⟩
            rcases hchar with ⟨_, h2, _⟩ | ⟨i, d, h1, h2, h3, h4⟩
            · cases h2
            · have hvb := h3 idx (card.value - t.value) rfl
              refine Or.inr ⟨i, d, h1, ?_, ?_, ?_⟩
              · rcases h2 with h2 | ⟨k, t', hk, hik, ht', hlt', hd⟩
                · cases h2
                  exact Or.inr ⟨0, t, by simp, by omega, by simpa using hr, hlt, rfl⟩
                · exact Or.inr ⟨k + 1, t', by simpa using hk, by omega,
                    by simpa using ht', hlt', hd⟩
              · intro i1 d1 h1'
                cases h1'
                rcases hvb with h | ⟨h, _⟩
                · exact Or.inl (by omega)
                · exact Or.inl (by omega)
              · intro k t' hk ht' hlt'
                cases k with
                | zero =>
                  simp only [List.getD_cons_zero] at ht'
                  rw [hr] at ht'
                  cases ht'
                  rcases hvb with h | ⟨h, h'⟩
                  · exact Or.inl h
                  · exact Or.inr ⟨h, by omega⟩
                | succ k =>
                  have := h4 k t' (by simpa using hk) (by simpa using ht') hlt'
                  rcases this with h | ⟨h, h'⟩
                  · exact Or.inl h
                  · exact Or.inr ⟨h, by omega⟩
          · have hstep : Board.whereGo card (r :: rest) idx (some (i0, d0)) =
                Board.whereGo card rest (idx + 1) (some (i0, d0)) := by
              simp [Board.whereGo, hr, hle, hdlt]
            obtain ⟨res, heq, hchar⟩ := ih (idx + 1) (some (i0, d0)) hne'
              (fun i d h => by cases h; omega)
            refine ⟨res, hstep.trans heq, ?_⟩
            rcases hchar with ⟨_, h2, _⟩ | ⟨i, d, h1, h2, h3, h4⟩
            · cases h2
            · have hvb := h3 i0 d0 rfl
              refine Or.inr ⟨i, d, h1, ?_, ?_, ?_⟩
              · rcases h2 with h2 | ⟨k, t', hk, hik, ht', hlt', hd⟩
                · exact Or.inl h2
                · exact Or.inr ⟨k + 1, t', by simpa using hk, by omega,
                    by simpa using ht', hlt', hd⟩
              · intro i1 d1 h1'
                cases h1'
                exact hvb
              · intro k t' hk ht' hlt'
                cases k with
                | zero =>
                  simp only [List.getD_cons_zero] at ht'
                  rw [hr] at ht'
                  cases ht'
                  rcases hvb with h | ⟨h, h'⟩
                  · exact Or.inl (by omega)
                  · by_cases hdd : d0 = card.value - t.value
                    · exact Or.inr ⟨by omega, by omega⟩
                    · exact Or.inl (by omega)
                | succ k =>
                  have := h4 k t' (by simpa using hk) (by simpa using ht') hlt'
                  rcases this with h | ⟨h, h'⟩
                  · exact Or.inl h
                  · exact Or.inr ⟨h, by omega⟩

/-- Helper: characterization of Board.where on a board whose rows are all
non-empty: it either reports that no row tail is below the card, or returns
the qualifying row with the smallest difference, earliest index on ties. -/
lemma whereRow_spec (b : Board) (card : Card) (hne : ∀ r ∈ b.board, r ≠ []) :
    ∃ o, b.whereRow card = some o ∧
      ((o = none ∧ ∀ k t, k < b.board.length →
          (b.board.getD k []).getLast? = some t → card.value ≤ t.value) ∨
       (∃ i, o = some i ∧ i < b.board.length ∧
         ∃ t, (b.board.getD i []).getLast? = some t ∧ t.value < card.value ∧
           ∀ k t', k < b.board.length → (b.board.getD k []).getLast? = some t' →
             t'.value < card.value →
             card.value - t.value < card.value - t'.value ∨
             (card.value - t.value = card.value - t'.value ∧ i ≤ k))) := by
  obtain ⟨res, heq, hchar⟩ := whereGo_spec card b.board 0 none hne (by intro i d h; cases h)
  refine ⟨res.map (fun p => p.1), ?_, ?_⟩
  · unfold Board.whereRow
    rw [heq]
    rfl
  · rcases hchar with ⟨h1, _, h3⟩ | ⟨i, d, h1, h2, _, h4⟩
    · exact Or.inl ⟨by rw [h1]; rfl, fun k t hk ht => h3 k hk t ht⟩
    · rcases h2 with h2 | ⟨k, t, hk, hik, ht, hlt, hd⟩
      · cases h2
      · refine Or.inr ⟨i, by rw [h1]; rfl, by omega, t, ?_, hlt, ?_⟩
        · have : k = i := by omega
          rw [this] at ht
          exact ht
        · intro k' t' hk' ht' hlt'
          have := h4 k' t' hk' ht' hlt'
          rw [← hd]
          simpa using this

/-- C4: on a board with non-empty rows, find_target_row returns the row whose
tail is strictly below the card with minimal value difference, ties broken by
the lowest row index; it reports no target exactly when every tail is at least
the card; on tails 5, 23, 61, 98 a card of 30 targets the row tailed 23, and a
card of 3 targets no row. -/
theorem where_argmin (b : Board) (card : Card) (hne : ∀ r ∈ b.board, r ≠ []) :
    (∀ i, b.whereRow card = some (some i) →
      i < b.board.length ∧
      ∃ t, (b.board.getD i []).getLast? = some t ∧ t.value < card.value ∧
        ∀ k t', k < b.board.length → (b.board.getD k []).getLast? = some t' →
          t'.value < card.value →
          card.value - t.value < card.value - t'.value ∨
          (card.value - t.value = card.value - t'.value ∧ i ≤ k)) ∧
    (b.whereRow card = some none ↔
      ∀ k t', k < b.board.length → (b.board.getD k []).getLast? = some t' →
        card.value ≤ t'.value) ∧
    Board.whereRow exampleBoard ⟨30⟩ = some (some 1) ∧
    Board.whereRow exampleBoard ⟨3⟩ = some none := by
  obtain ⟨o, ho, hchar⟩ := whereRow_spec b card hne
  refine ⟨?_, ⟨?_, ?_⟩, by decide, by decide⟩
  · intro i hi
    rw [ho] at hi
    cases hi
    rcases hchar with ⟨h1, _⟩ | ⟨i', h1, h2, t, h3, h4, h5⟩
    · cases h1
    · cases h1
      exact ⟨h2, t, h3, h4, h5⟩
  · intro h
    rw [ho] at h
    cases h
    rcases hchar with ⟨_, h2⟩ | ⟨i', h1, _⟩
    · exact h2
    · cases h1
  · intro h
    rcases hchar with ⟨h1, _⟩ | ⟨i', h1, h2, t, h3, h4, _⟩
    · rw [ho, h1]
    · exact absurd h4 (by simpa using h i' t h2 h3)

/-- Witness for C4: on the scenario board the card 30 targets row index 1,
which is tailed 23. -/
theorem where_argmin_witness :
    Board.whereRow exampleBoard ⟨30⟩ = some (some 1) :=
  (where_argmin exampleBoard ⟨30⟩ (by decide)).2.2.1

/-- Helper: a natural row index below the length is returned unchanged by
Python indexing. -/
lemma pyIdx_coe (n r : Nat) (h : r < n) : pyIdx n (r : Int) = some r := by
  unfold pyIdx
  have h0 : ¬((r : Int) < 0) := by omega
  simp only [h0, if_false]
  rw [if_pos ⟨by omega, by omega⟩]
  simp

/-- Helper: the index returned by Board.where is within the board. -/
lemma whereRow_lt (b : Board) (card : Card) (r : Nat)
    (hne : ∀ q ∈ b.board, q ≠ []) (hw : b.whereRow card = some (some r)) :
    r < b.board.length := by
  obtain ⟨o, ho, hchar⟩ := whereRow_spec b card hne
  rw [ho] at hw
  cases hw
  rcases hchar with ⟨h1, _⟩ | ⟨i, h1, h2, _⟩
  · cases h1
  · cases h1
    exact h2

/-- C5: place with an explicit row unconditionally sweeps it: the returned set
is the entire prior row content, the row becomes the single card at column 0,
and the position is (row, 0); without an explicit row the resolved target row
is swept identically when at maximum column count and otherwise receives the
appended card at (row, previous length) with nothing swept. -/
theorem place_characterization :
    (∀ (b : Board) (card : Card) (row : Int) (r : Nat),
      pyIdx b.board.length row = some r →
      b.place card (some row) =
        some ({ b with board := b.board.set r [card] }, ⟨row, 0⟩,
              (b.board.getD r []).toFinset)) ∧
    (∀ (b : Board) (card : Card) (r : Nat),
      (∀ q ∈ b.board, q ≠ []) →
      b.whereRow card = some (some r) →
      b.cols ≤ (b.board.getD r []).length →
      b.place card none =
        some ({ b with board := b.board.set r [card] }, ⟨(r : Int), 0⟩,
              (b.board.getD r []).toFinset)) ∧
    (∀ (b : Board) (card : Card) (r : Nat),
      b.whereRow card = some (some r) →
      (b.board.getD r []).length < b.cols →
      b.place card none =
        some ({ b with board := b.board.set r (b.board.getD r [] ++ [card]) },
              ⟨(r : Int), (b.board.getD r []).length⟩, ∅)) := by
  refine ⟨?_, ?_, ?_⟩
  · intro b card row r h
    simp only [Board.place, Board._sweep, h]
  · intro b card r hne hw hcol
    simp only [Board.place, Board._sweep, hw]
    rw [if_pos hcol, pyIdx_coe b.board.length r (whereRow_lt b card r hne hw)]
  · intro b card r hw hcol
    simp only [Board.place, hw]
    rw [if_neg (Nat.not_le.mpr hcol)]

/-- Witness for C5: sweeping row 2 of the scenario board with the card 30
returns the prior content of that row and resets it to the single card. -/
theorem place_characterization_witness :
    Board.place exampleBoard ⟨30⟩ (some 2) =
      some ({ exampleBoard with board := exampleBoard.board.set 2 [⟨30⟩] }, ⟨2, 0⟩,
            (exampleBoard.board.getD 2 []).toFinset) :=
  place_characterization.1 exampleBoard ⟨30⟩ 2 2 (by decide)

/-- Helper: full structure of a successful play: the guards that must have
passed, the two state updates, and the resulting smallest-card tracking. -/
lemma play_success_struct (s : Session) (pid : Nat) (card : Card) (s' : Session) :
    Session.play s pid card = some (true, s') →
    s.started = true ∧ s.progressed = false ∧
    s.cards_to_play.any (fun q => q.1 = pid) = false ∧
    (∃ p, s.players.find? (fun q => q.pid = pid) = some p ∧ card ∈ p.hand) ∧
    s'.players = updatePlayer s.players pid
      (fun q => { q with hand := q.hand.erase card }) ∧
    s'.cards_to_play = setAssoc s.cards_to_play pid card ∧
    s'.board = s.board ∧ s'.started = true ∧ s'.progressed = false ∧
    s'.selected_row = s.selected_row ∧ s'.cards_played = s.cards_played ∧
    s'.cards_per_player = s.cards_per_player ∧ s'.session_id = s.session_id ∧
    s'.min_players = s.min_players ∧ s'.max_players = s.max_players ∧
    ((∃ m, s.smallest_card_player = none ∧ s.board.smallest_card = some m ∧
        s'.smallest_card_player = if card.value < m.value then some pid else none) ∨
     (∃ h ch, s.smallest_card_player = some h ∧
        getAssoc (setAssoc s.cards_to_play pid card) h = some ch ∧
        s'.smallest_card_player = if card.value < ch.value then some pid else some h)) := by
  intro hplay
  by_cases h1 : s.started
  case neg => simp [Session.play, h1] at hplay
  by_cases h2 : s.progressed
  case pos => simp [Session.play, h1, h2] at hplay
  by_cases h3 : s.cards_to_play.any (fun q => q.1 = pid)
  case pos => simp [Session.play, h1, h2, h3] at hplay
  cases hf : s.players.find? (fun p => p.pid = pid) with
  | none => simp [Session.play, h1, h2, h3, hf] at hplay
  | some p =>
  by_cases h4 : card ∈ p.hand
  case neg => simp [Session.play, h1, h2, h3, hf, h4] at hplay
  cases hsc : s.smallest_card_player with
  | none =>
    cases hm : s.board.smallest_card with
    | none => simp [Session.play, h1, h2, h3, hf, h4, hsc, hm] at hplay
    | some m =>
      by_cases hlt : card.value < m.value
      · have hev : Session.play s pid card = some (true, { s with
            players := updatePlayer s.players pid
              (fun q => { q with hand := q.hand.erase card }),
            cards_to_play := setAssoc s.cards_to_play pid card,
            smallest_card_player := some pid }) := by
          simp [Session.play, h1, h2, h3, hf, h4, hsc, hm, hlt, getAssoc_setAssoc_self]
        rw [hev] at hplay
        simp only [Option.some_inj, Prod.mk.injEq, true_and] at hplay
        subst hplay
        exact ⟨h1, by simp only [Bool.not_eq_true] at h2; exact h2,
          by simp only [Bool.not_eq_true] at h3; exact h3, ⟨p, rfl, h4⟩,
          rfl, rfl, rfl, h1, by simp only [Bool.not_eq_true] at h2; exact h2,
          rfl, rfl, rfl, rfl, rfl, rfl,
          Or.inl ⟨m, rfl, rfl, by rw [if_pos hlt]⟩⟩
      · have hev : Session.play s pid card = some (true, { s with
            players := updatePlayer s.players pid
              (fun q => { q with hand := q.hand.erase card }),
            cards_to_play := setAssoc s.cards_to_play pid card,
            smallest_card_player := none }) := by
          simp [Session.play, h1, h2, h3, hf, h4, hsc, hm, hlt, getAssoc_setAssoc_self]
        rw [hev] at hplay
        simp only [Option.some_inj, Prod.mk.injEq, true_and] at hplay
        subst hplay
        exact ⟨h1, by simp only [Bool.not_eq_true] at h2; exact h2,
          by simp only [Bool.not_eq_true] at h3; exact h3, ⟨p, rfl, h4⟩,
          rfl, rfl, rfl, h1, by simp only [Bool.not_eq_true] at h2; exact h2,
          rfl, rfl, rfl, rfl, rfl, rfl,
          Or.inl ⟨m, rfl, rfl, by rw [if_neg hlt]⟩⟩
  | some h =>
    cases hg : getAssoc (setAssoc s.cards_to_play pid card) h with
    | none => simp [Session.play, h1, h2, h3, hf, h4, hsc, hg] at hplay
    | some ch =>
      have hev : Session.play s pid card = some (true, { s with
          players := updatePlayer s.players pid
            (fun q => { q with hand := q.hand.erase card }),
          cards_to_play := setAssoc s.cards_to_play pid card,
          smallest_card_player := if card.value < ch.value then some pid else some h }) := by
        simp [Session.play, h1, h2, h3, hf, h4, hsc, hg]
      rw [hev] at hplay
      simp only [Option.some_inj, Prod.mk.injEq, true_and] at hplay
      subst hplay
      exact ⟨h1, by simp only [Bool.not_eq_true] at h2; exact h2,
        by simp only [Bool.not_eq_true] at h3; exact h3, ⟨p, rfl, h4⟩,
        rfl, rfl, rfl, h1, by simp only [Bool.not_eq_true] at h2; exact h2,
        rfl, rfl, rfl, rfl, rfl, rfl,
        Or.inr ⟨h, ch, rfl, hg, rfl⟩⟩

/-- C6: a successful play records the card under the player in cards_to_play,
and the smallest-card player becomes the caller exactly when (a) none was
tracked and the card is strictly below the smallest board tail, or (b) one was
tracked and the card is strictly below that holder's submitted card; otherwise
the tracking is unchanged. In the scenario where A (pid 0) plays 10 and B
(pid 1) plays 2 below every tail, B ends up tracked. -/
theorem play_smallest_tracking :
    (∀ (s : Session) (pid : Nat) (card : Card) (s' : Session),
      Session.play s pid card = some (true, s') →
      getAssoc s'.cards_to_play pid = some card ∧
      (((s.smallest_card_player = none ∧
          ∃ m, s.board.smallest_card = some m ∧ card.value < m.value) ∨
        (∃ h ch, s.smallest_card_player = some h ∧
          getAssoc (setAssoc s.cards_to_play pid card) h = some ch ∧
          card.value < ch.value)) →
        s'.smallest_card_player = some pid) ∧
      (¬(s.smallest_card_player = none ∧
          ∃ m, s.board.smallest_card = some m ∧ card.value < m.value) →
       ¬(∃ h ch, s.smallest_card_player = some h ∧
          getAssoc (setAssoc s.cards_to_play pid card) h = some ch ∧
          card.value < ch.value) →
        s'.smallest_card_player = s.smallest_card_player)) ∧
    ((Session.play sAB 0 ⟨10⟩).bind (fun r => Session.play r.2 1 ⟨2⟩)).map
      (fun r => (r.1, r.2.smallest_card_player)) = some (true, some 1) := by
  constructor
  · intro s pid card s' hplay
    obtain ⟨_, _, _, _, _, hctp, _, _, _, _, _, _, _, _, _, hsm⟩ :=
      play_success_struct s pid card s' hplay
    refine ⟨by rw [hctp]; exact getAssoc_setAssoc_self _ _ _, ?_, ?_⟩
    · intro hab
      rcases hsm with ⟨m, hnone, hm, hout⟩ | ⟨h, ch, hsome, hg, hout⟩
      · rcases hab with ⟨_, m', hm', hlt'⟩ | ⟨h, _, hsome', _⟩
        · rw [hm] at hm'
          cases hm'
          rw [hout, if_pos hlt']
        · rw [hnone] at hsome'
          cases hsome'
      · rcases hab with ⟨hnone', _⟩ | ⟨h', ch', hsome', hg', hlt'⟩
        · rw [hsome] at hnone'
          cases hnone'
        · rw [hsome] at hsome'
          cases hsome'
          rw [hg] at hg'
          cases hg'
          rw [hout, if_pos hlt']
    · intro hnA hnB
      rcases hsm with ⟨m, hnone, hm, hout⟩ | ⟨h, ch, hsome, hg, hout⟩
      · have hnlt : ¬card.value < m.value := fun hlt => hnA ⟨hnone, m, hm, hlt⟩
        rw [hout, if_neg hnlt, hnone]
      · have hnlt : ¬card.value < ch.value := fun hlt => hnB ⟨h, ch, hsome, hg, hlt⟩
        rw [hout, if_neg hnlt, hsome]
  · decide

/-- Witness for C6: after A (pid 0) successfully plays the 10 on the scenario
session, cards_to_play maps pid 0 to that card. -/
theorem play_smallest_tracking_witness :
    getAssoc (((Session.play sAB 0 ⟨10⟩).getD (false, sAB)).2).cards_to_play 0 =
      some ⟨10⟩ :=
  (play_smallest_tracking.1 sAB 0 ⟨10⟩
    (((Session.play sAB 0 ⟨10⟩).getD (false, sAB)).2) (by rfl)).1

/-- Automatic-placement tail of the turn resolution as the spec words it: every
card places automatically, swept cards join the stack of the placing player,
and (card, position) is recorded. -/
def autoResolve : Board → List PlayerState → List (Nat × Card × Position) →
    List (Nat × Card) → Option (Board × List PlayerState × List (Nat × Card × Position))
  | b, ps, pl, [] => some (b, ps, pl)
  | b, ps, pl, (pid, card) :: rest =>
    match b.place card none with
    | none => none
    | some (b', pos, stack) =>
      autoResolve b' (updatePlayer ps pid (fun p => { p with stack := p.stack ∪ stack }))
        (setAssoc pl pid (card, pos)) rest

/-- Turn resolution as the spec words it: the first (lowest) card uses the
explicitly selected row, every subsequent card places automatically. -/
def specResolve (selRow : Option Int) (b : Board) (ps : List PlayerState)
    (pl : List (Nat × Card × Position)) :
    List (Nat × Card) → Option (Board × List PlayerState × List (Nat × Card × Position))
  | [] => some (b, ps, pl)
  | (pid, card) :: rest =>
    match b.place card selRow with
    | none => none
    | some (b', pos, stack) =>
      autoResolve b' (updatePlayer ps pid (fun p => { p with stack := p.stack ∪ stack }))
        (setAssoc pl pid (card, pos)) rest

/-- Helper: from a nonzero index on, the placement loop is plain automatic
placement. -/
lemma placeLoop_pos (selRow : Option Int) :
    ∀ (l : List (Nat × Card)) (b : Board) (ps : List PlayerState)
      (pl : List (Nat × Card × Position)) (idx : Nat), idx ≠ 0 →
      placeLoop selRow b ps pl l idx = autoResolve b ps pl l := by
  intro l
  induction l with
  | nil => intro b ps pl idx h; rfl
  | cons q rest ih =>
    intro b ps pl idx h
    obtain ⟨pid, card⟩ := q
    simp only [placeLoop, autoResolve, if_neg h]
    cases b.place card none with
    | none => rfl
    | some r => exact ih _ _ _ (idx + 1) (Nat.succ_ne_zero idx)

/-- Helper: the placement loop started at index zero is the spec resolution. -/
lemma placeLoop_zero (selRow : Option Int) (l : List (Nat × Card)) (b : Board)
    (ps : List PlayerState) (pl : List (Nat × Card × Position)) :
    placeLoop selRow b ps pl l 0 = specResolve selRow b ps pl l := by
  cases l with
  | nil => rfl
  | cons q rest =>
    obtain ⟨pid, card⟩ := q
    simp only [placeLoop, specResolve]
    rw [if_pos trivial]
    cases b.place card selRow with
    | none => rfl
    | some r =>
      obtain ⟨b', pos, st⟩ := r
      exact placeLoop_pos selRow rest _ _ _ 1 (Nat.succ_ne_zero 0)

/-- Helper: two permuted lists that are both strictly sorted by card value are
equal. -/
lemma sorted_perm_eq :
    ∀ (l1 l2 : List (Nat × Card)), l1.Perm l2 →
      List.Pairwise (fun a b : Nat × Card => a.2.value < b.2.value) l1 →
      List.Pairwise (fun a b : Nat × Card => a.2.value < b.2.value) l2 →
      l1 = l2 := by
  intro l1
  induction l1 with
  | nil =>
    intro l2 hp _ _
    exact List.Perm.nil_eq hp
  | cons a t1 ih =>
    intro l2 hp h1 h2
    cases l2 with
    | nil =>
      have := hp.length_eq
      simp at this
    | cons b t2 =>
      have hab : a = b := by
        by_contra hne
        have hbmem : b ∈ a :: t1 := hp.symm.subset (List.mem_cons_self b t2)
        have hamem : a ∈ b :: t2 := hp.subset (List.mem_cons_self a t1)
        have hb1 : b ∈ t1 := by
          rcases List.mem_cons.mp hbmem with h | h
          · exact absurd h.symm hne
          · exact h
        have ha2 : a ∈ t2 := by
          rcases List.mem_cons.mp hamem with h | h
          · exact absurd h hne
          · exact h
        have hlt1 : a.2.value < b.2.value := (List.pairwise_cons.mp h1).1 b hb1
        have hlt2 : b.2.value < a.2.value := (List.pairwise_cons.mp h2).1 a ha2
        omega
      subst hab
      have hp' : t1.Perm t2 := hp.cons_inv
      rw [ih t2 hp' (List.pairwise_cons.mp h1).2 (List.pairwise_cons.mp h2).2]

/-- Helper: a list sorted by value whose values are distinct is strictly
sorted. -/
lemma sorted_nodup_strict (l : List (Nat × Card)) (hs : l.Sorted playLE)
    (hn : (l.map (fun q => q.2.value)).Nodup) :
    List.Pairwise (fun a b : Nat × Card => a.2.value < b.2.value) l := by
  have hne : List.Pairwise (fun a b : Nat × Card => a.2.value ≠ b.2.value) l :=
    (List.pairwise_map.mp hn)
  exact (hs.and hne).imp (fun h => Nat.lt_of_le_of_ne h.1 h.2)

/-- Helper: structure of a successful progress. -/
lemma progress_success_struct (s : Session) (s' : Session) :
    Session.progress s = some (true, s') →
    s.should_progress = true ∧
    ∃ b ps pl, placeLoop s.selected_row s.board s.players s.cards_played
        (List.insertionSort playLE s.cards_to_play) 0 = some (b, ps, pl) ∧
      s' = { s with board := b, players := ps, cards_played := pl,
                    progressed := true } := by
  intro h
  unfold Session.progress at h
  by_cases hg : s.should_progress
  · simp only [hg, Bool.not_true, Bool.false_eq_true, if_false] at h
    cases hp : placeLoop s.selected_row s.board s.players s.cards_played
        (List.insertionSort playLE s.cards_to_play) 0 with
    | none => rw [hp] at h; exact absurd h (by simp)
    | some t =>
      obtain ⟨b, ps, pl⟩ := t
      rw [hp] at h
      simp only [Option.some_inj, Prod.mk.injEq, true_and] at h
      exact ⟨hg, b, ps, pl, rfl, h.symm⟩
  · simp [hg] at h

/-- Concrete ready-to-resolve session for the C3 witness: both players have
played, the tie-break holder (pid 1) has a selected row. -/
def sProg : Session :=
  { session_id := "p",
    players := [⟨0, ∅, ∅⟩, ⟨1, ∅, ∅⟩],
    board := { rows := 4, cols := 5, board := [[⟨20⟩], [⟨30⟩], [⟨40⟩], [⟨50⟩]] },
    started := true,
    smallest_card_player := some 1,
    selected_row := some 0,
    cards_to_play := [(0, ⟨10⟩), (1, ⟨2⟩)] }

/-- C3: a successful progress resolves the turn on some ascending reordering of
the submissions, exactly as the spec words it (first card on the selected row,
later cards automatic, sweeps into the placing player's stack, results into
cards_played), sets progressed, and is deterministic in the submission map:
any session agreeing on board, players, selected row and prior results whose
cards_to_play is a permutation with distinct values resolves identically. -/
theorem progress_resolution (s : Session) (s' : Session)
    (h : Session.progress s = some (true, s')) :
    (∃ l, s.cards_to_play.Perm l ∧ l.Sorted playLE ∧
      specResolve s.selected_row s.board s.players s.cards_played l =
        some (s'.board, s'.players, s'.cards_played)) ∧
    s'.progressed = true ∧
    (∀ (s2 : Session) (s2' : Session),
      s2.cards_to_play.Perm s.cards_to_play →
      s2.board = s.board → s2.players = s.players →
      s2.selected_row = s.selected_row → s2.cards_played = s.cards_played →
      (s.cards_to_play.map (fun q => q.2.value)).Nodup →
      Session.progress s2 = some (true, s2') →
      s2'.board = s'.board ∧ s2'.players = s'.players ∧
        s2'.cards_played = s'.cards_played) := by
  obtain ⟨hg, b, ps, pl, hloop, hrec⟩ := progress_success_struct s s' h
  have hfields : s'.board = b ∧ s'.players = ps ∧ s'.cards_played = pl ∧
      s'.progressed = true := by
    rw [hrec]
    exact ⟨rfl, rfl, rfl, rfl⟩
  refine ⟨⟨List.insertionSort playLE s.cards_to_play,
      (List.perm_insertionSort playLE s.cards_to_play).symm,
      List.sorted_insertionSort playLE s.cards_to_play, ?_⟩, hfields.2.2.2, ?_⟩
  · rw [hfields.1, hfields.2.1, hfields.2.2.1, ← placeLoop_zero]
    exact hloop
  · intro s2 s2' hperm hb hp hsel hpl hnodup h2
    obtain ⟨hg2, b2, ps2, pl2, hloop2, hrec2⟩ := progress_success_struct s2 s2' h2
    have hn1 : ((List.insertionSort playLE s.cards_to_play).map
        (fun q => q.2.value)).Nodup :=
      (((List.perm_insertionSort playLE s.cards_to_play).map
        (fun q => q.2.value)).nodup_iff).mpr hnodup
    have hn2raw : (s2.cards_to_play.map (fun q => q.2.value)).Nodup :=
      ((hperm.map (fun q => q.2.value)).nodup_iff).mpr hnodup
    have hn2 : ((List.insertionSort playLE s2.cards_to_play).map
        (fun q => q.2.value)).Nodup :=
      (((List.perm_insertionSort playLE s2.cards_to_play).map
        (fun q => q.2.value)).nodup_iff).mpr hn2raw
    have hleq : List.insertionSort playLE s2.cards_to_play =
        List.insertionSort playLE s.cards_to_play := by
      apply sorted_perm_eq
      · exact ((List.perm_insertionSort playLE s2.cards_to_play).trans hperm).trans
          (List.perm_insertionSort playLE s.cards_to_play).symm
      · exact sorted_nodup_strict _ (List.sorted_insertionSort playLE _) hn2
      · exact sorted_nodup_strict _ (List.sorted_insertionSort playLE _) hn1
    rw [hleq, hsel, hb, hp, hpl, hloop] at hloop2
    have hbps : b2 = b ∧ ps2 = ps ∧ pl2 = pl := by
      have := Option.some_inj.mp hloop2.symm
      exact ⟨congrArg (fun t => t.1) this,
        congrArg (fun t => t.2.1) this, congrArg (fun t => t.2.2) this⟩
    have hfields2 : s2'.board = b2 ∧ s2'.players = ps2 ∧ s2'.cards_played = pl2 := by
      rw [hrec2]
      exact ⟨rfl, rfl, rfl⟩
    refine ⟨?_, ?_, ?_⟩
    · rw [hfields2.1, hbps.1, hfields.1]
    · rw [hfields2.2.1, hbps.2.1, hfields.2.1]
    · rw [hfields2.2.2, hbps.2.2, hfields.2.2.1]

/-- Witness for C3: the concrete ready session resolves with the progressed
flag set. -/
theorem progress_resolution_witness :
    (((Session.progress sProg).getD (false, sProg)).2).progressed = true :=
  (progress_resolution sProg (((Session.progress sProg).getD (false, sProg)).2)
    (by rfl)).2.1

/-- Helper: membership in the union of the board rows. -/
lemma mem_boardCards {b : Board} {x : Card} :
    x ∈ boardCards b ↔ ∃ row ∈ b.board, x ∈ row := by
  unfold boardCards
  induction b.board with
  | nil => simp
  | cons row rest ih => simp [ih]

/-- Helper: membership in the union of the hands. -/
lemma mem_handCards {ps : List PlayerState} {x : Card} :
    x ∈ handCards ps ↔ ∃ p ∈ ps, x ∈ p.hand := by
  unfold handCards
  induction ps with
  | nil => simp
  | cons p rest ih => simp [ih]

/-- Helper: membership in the union of the stacks. -/
lemma mem_stackCards {ps : List PlayerState} {x : Card} :
    x ∈ stackCards ps ↔ ∃ p ∈ ps, x ∈ p.stack := by
  unfold stackCards
  induction ps with
  | nil => simp
  | cons p rest ih => simp [ih]

/-- Helper: setting an entry decomposes into take, the value, and drop. -/
lemma list_set_decomp {α : Type} :
    ∀ (L : List α) (r : Nat) (v : α), r < L.length →
      L.set r v = L.take r ++ v :: L.drop (r + 1) := by
  intro L
  induction L with
  | nil => intro r v h; simp at h
  | cons a t ih =>
    intro r v h
    cases r with
    | zero => simp
    | succ r =>
      simp only [List.set_cons_succ, List.take_succ_cons, List.drop_succ_cons,
        List.cons_append, List.cons.injEq, true_and]
      exact ih r v (by simpa using h)

/-- Helper: a list decomposes at a valid index into take, the entry, and drop. -/
lemma list_self_decomp {α : Type} [Inhabited α] :
    ∀ (L : List α) (r : Nat), r < L.length →
      L = L.take r ++ L.getD r default :: L.drop (r + 1) := by
  intro L
  induction L with
  | nil => intro r h; simp at h
  | cons a t ih =>
    intro r h
    cases r with
    | zero => simp
    | succ r =>
      simp only [List.take_succ_cons, List.drop_succ_cons, List.getD_cons_succ,
        List.cons_append, List.cons.injEq, true_and]
      exact ih r (by simpa using h)

/-- Helper: the row union of an appended list. -/
lemma boardCards_append (L1 L2 : List (List Card)) :
    (L1 ++ L2).foldr (fun row acc => row.toFinset ∪ acc) (∅ : Finset Card) =
    L1.foldr (fun row acc => row.toFinset ∪ acc) ∅ ∪
      L2.foldr (fun row acc => row.toFinset ∪ acc) ∅ := by
  induction L1 with
  | nil => simp
  | cons a t ih => simp [ih, Finset.union_assoc]

/-- Helper: a successful Python index is below the length. -/
lemma pyIdx_lt (n : Nat) (i : Int) (r : Nat) (h : pyIdx n i = some r) : r < n := by
  unfold pyIdx at h
  dsimp only at h
  split_ifs at h with h1 h2 h3
  all_goals first
    | (simp only [Option.some_inj] at h; omega)
    | (exact absurd h (by simp))

/-- Helper: any index produced by the scanning loop is below the end of the
scanned range. -/
lemma whereGo_bound (card : Card) :
    ∀ (rows : List (List Card)) (idx : Nat) (best : Option (Nat × Nat))
      (res : Option (Nat × Nat)),
      Board.whereGo card rows idx best = some res →
      (∀ i d, best = some (i, d) → i < idx) →
      ∀ i d, res = some (i, d) → i < idx + rows.length := by
  intro rows
  induction rows with
  | nil =>
    intro idx best res h hb i d hres
    simp only [Board.whereGo, Option.some_inj] at h
    subst h
    simpa using hb i d hres
  | cons r rest ih =>
    intro idx best res h hb i d hres
    cases hr : r.getLast? with
    | none =>
      have hnone : Board.whereGo card (r :: rest) idx best = none := by
        simp [Board.whereGo, hr]
      rw [hnone] at h
      exact absurd h (by simp)
    | some t =>
      by_cases hle : card.value ≤ t.value
      · have hstep : Board.whereGo card (r :: rest) idx best =
            Board.whereGo card rest (idx + 1) best := by
          simp [Board.whereGo, hr, hle]
        rw [hstep] at h
        have := ih (idx + 1) best res h
          (fun i0 d0 h0 => Nat.lt_succ_of_lt (hb i0 d0 h0)) i d hres
        simp only [List.length_cons]
        omega
      · cases best with
        | none =>
          have hstep : Board.whereGo card (r :: rest) idx none =
              Board.whereGo card rest (idx + 1) (some (idx, card.value - t.value)) := by
            simp [Board.whereGo, hr, hle]
          rw [hstep] at h
          have := ih (idx + 1) (some (idx, card.value - t.value)) res h
            (by intro i1 d1 h1; cases h1; omega) i d hres
          simp only [List.length_cons]
          omega
        | some p =>
          obtain ⟨i0, d0⟩ := p
          have hi0 : i0 < idx := hb i0 d0 rfl
          by_cases hdlt : card.value - t.value < d0
          · have hstep : Board.whereGo card (r :: rest) idx (some (i0, d0)) =
                Board.whereGo card rest (idx + 1) (some (idx, card.value - t.value)) := by
              simp [Board.whereGo, hr, hle, hdlt]
            rw [hstep] at h
            have := ih (idx + 1) (some (idx, card.value - t.value)) res h
              (by intro i1 d1 h1; cases h1; omega) i d hres
            simp only [List.length_cons]
            omega
          · have hstep : Board.whereGo card (r :: rest) idx (some (i0, d0)) =
                Board.whereGo card rest (idx + 1) (some (i0, d0)) := by
              simp [Board.whereGo, hr, hle, hdlt]
            rw [hstep] at h
            have := ih (idx + 1) (some (i0, d0)) res h
              (by intro i1 d1 h1; cases h1; omega) i d hres
            simp only [List.length_cons]
            omega

/-- Helper: the row index returned by Board.where is always in range, with no
assumption on the rows. -/
lemma whereRow_lt' (b : Board) (card : Card) (r : Nat)
    (hw : b.whereRow card = some (some r)) : r < b.board.length := by
  unfold Board.whereRow at hw
  cases hg : Board.whereGo card b.board 0 none with
  | none => rw [hg] at hw; exact absurd hw (by simp)
  | some o =>
    rw [hg] at hw
    simp only [Option.map_eq_some', Option.some_inj] at hw
    obtain ⟨o2, ho2, ho3⟩ := hw
    cases o with
    | none =>
      subst ho2
      simp at ho3
    | some p =>
      obtain ⟨i, d⟩ := p
      subst ho2
      have hval : i = r := by simpa using ho3
      have := whereGo_bound card b.board 0 none (some (i, d)) hg
        (by intro i0 d0 h0; cases h0) i d rfl
      omega

/-- Helper: the union of the rows of an entry update, together with the old
entry, is the old union together with the new entry. -/
lemma boardCards_set :
    ∀ (L : List (List Card)) (r : Nat) (v : List Card), r < L.length →
      (L.set r v).foldr (fun row acc => row.toFinset ∪ acc) (∅ : Finset Card) ∪
          (L.getD r []).toFinset =
        L.foldr (fun row acc => row.toFinset ∪ acc) ∅ ∪ v.toFinset := by
  intro L
  induction L with
  | nil => intro r v h; simp at h
  | cons a t ih =>
    intro r v h
    cases r with
    | zero =>
      simp only [List.set_cons_zero, List.getD_cons_zero, List.foldr_cons]
      ext x
      simp only [Finset.mem_union]
      tauto
    | succ r =>
      simp only [List.set_cons_succ, List.getD_cons_succ, List.foldr_cons]
      have := ih r v (by simpa using h)
      ext x
      have hx := Finset.ext_iff.mp this x
      simp only [Finset.mem_union] at hx ⊢
      tauto

/-- Helper: a row read from the board is contained in the union of the rows. -/
lemma boardCards_getD_subset :
    ∀ (L : List (List Card)) (r : Nat), r < L.length →
      (L.getD r []).toFinset ⊆
        L.foldr (fun row acc => row.toFinset ∪ acc) (∅ : Finset Card) := by
  intro L
  induction L with
  | nil => intro r h; simp at h
  | cons a t ih =>
    intro r h
    cases r with
    | zero =>
      simp only [List.getD_cons_zero, List.foldr_cons]
      exact Finset.subset_union_left
    | succ r =>
      simp only [List.getD_cons_succ, List.foldr_cons]
      exact (ih r (by simpa using h)).trans Finset.subset_union_right

/-- Helper: conservation and shape facts for one placement: the new board plus
the swept set carries exactly the old board plus the placed card, the swept set
comes from the old board, and the board shape is unchanged. -/
lemma place_conserve (b : Board) (card : Card) (row : Option Int) (b' : Board)
    (pos : Position) (st : Finset Card)
    (h : b.place card row = some (b', pos, st)) :
    boardCards b' ∪ st = boardCards b ∪ {card} ∧ st ⊆ boardCards b ∧
    b'.board.length = b.board.length ∧ b'.rows = b.rows ∧ b'.cols = b.cols := by
  have main : ∀ (r : Nat), r < b.board.length →
      ((b'.board = b.board.set r [card] ∧ st = (b.board.getD r []).toFinset) ∨
       (b'.board = b.board.set r (b.board.getD r [] ++ [card]) ∧ st = ∅)) →
      b'.rows = b.rows → b'.cols = b.cols →
      boardCards b' ∪ st = boardCards b ∪ {card} ∧ st ⊆ boardCards b ∧
      b'.board.length = b.board.length ∧ b'.rows = b.rows ∧ b'.cols = b.cols := by
    intro r hr hcase hrows hcols
    rcases hcase with ⟨hb, hst⟩ | ⟨hb, hst⟩
    · refine ⟨?_, ?_, by rw [hb]; simp, hrows, hcols⟩
      · unfold boardCards
        rw [hb, hst, boardCards_set b.board r [card] hr]
        simp
      · rw [hst]
        exact boardCards_getD_subset b.board r hr
    · refine ⟨?_, by rw [hst]; exact Finset.empty_subset _, by rw [hb]; simp,
        hrows, hcols⟩
      have hkey := boardCards_set b.board r (b.board.getD r [] ++ [card]) hr
      have hsub : (b.board.getD r ([] : List Card)).toFinset ⊆
          (b.board.set r (b.board.getD r [] ++ [card])).foldr
            (fun row acc => row.toFinset ∪ acc) ∅ := by
        have hlen : r < (b.board.set r (b.board.getD r [] ++ [card])).length := by
          simpa using hr
        have hg : (b.board.set r (b.board.getD r [] ++ [card])).getD r [] =
            b.board.getD r [] ++ [card] := by
          rw [List.getD_eq_getElem _ [] hlen, List.getElem_set_self]
        have := boardCards_getD_subset (b.board.set r (b.board.getD r [] ++ [card])) r hlen
        rw [hg] at this
        intro x hx
        exact this (by rw [List.toFinset_append]; exact Finset.mem_union_left _ hx)
      unfold boardCards
      rw [hb, hst, Finset.union_empty]
      have habs : (b.board.set r (b.board.getD r [] ++ [card])).foldr
          (fun row acc => row.toFinset ∪ acc) (∅ : Finset Card) =
          (b.board.set r (b.board.getD r [] ++ [card])).foldr
            (fun row acc => row.toFinset ∪ acc) ∅ ∪
            (b.board.getD r []).toFinset := (Finset.union_eq_left.mpr hsub).symm
      rw [habs, hkey, List.toFinset_append]
      ext x
      simp only [Finset.mem_union]
      constructor
      · rintro (h | h | h)
        · exact Or.inl h
        · exact Or.inl ((boardCards_getD_subset b.board r hr) h)
        · exact Or.inr (by simpa using h)
      · rintro (h | h)
        · exact Or.inl h
        · exact Or.inr (Or.inr (by simpa using h))
  cases row with
  | some rowI =>
    cases hpy : pyIdx b.board.length rowI with
    | none =>
      have hev : b.place card (some rowI) = none := by
        simp [Board.place, Board._sweep, hpy]
      rw [hev] at h
      exact absurd h (by simp)
    | some r =>
      have hr : r < b.board.length := pyIdx_lt _ _ _ hpy
      have hev : b.place card (some rowI) =
          some ({ b with board := b.board.set r [card] }, ⟨rowI, 0⟩,
                (b.board.getD r []).toFinset) := by
        simp [Board.place, Board._sweep, hpy]
      rw [hev] at h
      simp only [Option.some_inj, Prod.mk.injEq] at h
      exact main r hr (Or.inl ⟨h.1.symm ▸ rfl, h.2.2.symm⟩)
        (by rw [← h.1]) (by rw [← h.1])
  | none =>
    cases hw : b.whereRow card with
    | none =>
      have hev : b.place card none = none := by simp [Board.place, hw]
      rw [hev] at h
      exact absurd h (by simp)
    | some o =>
      cases o with
      | none =>
        have hev : b.place card none = none := by simp [Board.place, hw]
        rw [hev] at h
        exact absurd h (by simp)
      | some r =>
        have hr : r < b.board.length := whereRow_lt' b card r hw
        by_cases hcol : b.cols ≤ (b.board.getD r []).length
        · have hev : b.place card none =
              some ({ b with board := b.board.set r [card] }, ⟨(r : Int), 0⟩,
                    (b.board.getD r []).toFinset) := by
            unfold Board.place
            dsimp only
            rw [hw]
            dsimp only
            rw [if_pos hcol]
            unfold Board._sweep
            rw [pyIdx_coe b.board.length r hr]
          rw [hev] at h
          simp only [Option.some_inj, Prod.mk.injEq] at h
          exact main r hr (Or.inl ⟨h.1.symm ▸ rfl, h.2.2.symm⟩)
            (by rw [← h.1]) (by rw [← h.1])
        · have hev : b.place card none =
              some ({ b with board := b.board.set r (b.board.getD r [] ++ [card]) },
                    ⟨(r : Int), (b.board.getD r []).length⟩, ∅) := by
            unfold Board.place
            dsimp only
            rw [hw]
            dsimp only
            rw [if_neg hcol]
          rw [hev] at h
          simp only [Option.some_inj, Prod.mk.injEq] at h
          exact main r hr (Or.inr ⟨h.1.symm ▸ rfl, h.2.2.symm⟩)
            (by rw [← h.1]) (by rw [← h.1])

/-- Helper: updating a player preserves the pid sequence when the update keeps
the pid. -/
lemma updatePlayer_pid_map (ps : List PlayerState) (pid : Nat)
    (f : PlayerState → PlayerState) (hpid : ∀ p, (f p).pid = p.pid) :
    (updatePlayer ps pid f).map PlayerState.pid = ps.map PlayerState.pid := by
  unfold updatePlayer
  induction ps with
  | nil => rfl
  | cons p t ih =>
    simp only [List.map_cons, List.map_map] at ih ⊢
    rw [ih]
    by_cases hp : p.pid = pid <;> simp [hp, hpid]

/-- Helper: updating a player preserves the hand union when the update keeps
the hand. -/
lemma handCards_updatePlayer (ps : List PlayerState) (pid : Nat)
    (f : PlayerState → PlayerState) (hh : ∀ p, (f p).hand = p.hand) :
    handCards (updatePlayer ps pid f) = handCards ps := by
  unfold updatePlayer handCards
  induction ps with
  | nil => rfl
  | cons p t ih =>
    simp only [List.map_cons, List.foldr_cons] at ih ⊢
    rw [ih]
    by_cases hp : p.pid = pid <;> simp [hp, hh]

/-- Helper: updating a player preserves the stack union when the update keeps
the stack. -/
lemma stackCards_updatePlayer (ps : List PlayerState) (pid : Nat)
    (f : PlayerState → PlayerState) (hs : ∀ p, (f p).stack = p.stack) :
    stackCards (updatePlayer ps pid f) = stackCards ps := by
  unfold updatePlayer stackCards
  induction ps with
  | nil => rfl
  | cons p t ih =>
    simp only [List.map_cons, List.foldr_cons] at ih ⊢
    rw [ih]
    by_cases hp : p.pid = pid <;> simp [hp, hs]

/-- Helper: adding a swept set to the stack of a present player makes the stack
union grow by exactly that set. -/
lemma stackCards_update_union (ps : List PlayerState) (pid : Nat) (st : Finset Card)
    (hmem : pid ∈ ps.map PlayerState.pid) :
    stackCards (updatePlayer ps pid (fun p => { p with stack := p.stack ∪ st })) =
      stackCards ps ∪ st := by
  apply Finset.Subset.antisymm
  · intro x hx
    rw [mem_stackCards] at hx
    obtain ⟨p', hp', hxp⟩ := hx
    unfold updatePlayer at hp'
    obtain ⟨p, hp, hpe⟩ := List.mem_map.mp hp'
    by_cases hcase : p.pid = pid
    · rw [if_pos hcase] at hpe
      subst hpe
      simp only [Finset.mem_union] at hxp
      rcases hxp with hxp | hxp
      · exact Finset.mem_union_left _ (mem_stackCards.mpr ⟨p, hp, hxp⟩)
      · exact Finset.mem_union_right _ hxp
    · rw [if_neg hcase] at hpe
      subst hpe
      exact Finset.mem_union_left _ (mem_stackCards.mpr ⟨p, hp, hxp⟩)
  · intro x hx
    simp only [Finset.mem_union] at hx
    rcases hx with hx | hx
    · rw [mem_stackCards] at hx ⊢
      obtain ⟨p, hp, hxp⟩ := hx
      refine ⟨if p.pid = pid then { p with stack := p.stack ∪ st } else p, ?_, ?_⟩
      · unfold updatePlayer
        exact List.mem_map.mpr ⟨p, hp, rfl⟩
      · by_cases hcase : p.pid = pid
        · rw [if_pos hcase]
          exact Finset.mem_union_left _ hxp
        · rw [if_neg hcase]
          exact hxp
    · obtain ⟨p0, hp0, hpe⟩ := List.mem_map.mp hmem
      rw [mem_stackCards]
      refine ⟨{ p0 with stack := p0.stack ∪ st }, ?_, Finset.mem_union_right _ hx⟩
      unfold updatePlayer
      exact List.mem_map.mpr ⟨p0, hp0, by rw [if_pos hpe]⟩

/-- Helper: the pending-card set of a cons. -/
lemma toPlayCards_cons (pid : Nat) (card : Card) (rest : List (Nat × Card)) :
    toPlayCards ((pid, card) :: rest) = insert card (toPlayCards rest) := by
  simp [toPlayCards]

/-- Helper: the placement loop conserves cards: the final board and stacks
carry exactly the initial board, the initial stacks, and the placed cards;
hands, pid order and board shape are untouched. -/
lemma placeLoop_conserve :
    ∀ (l : List (Nat × Card)) (b : Board) (ps : List PlayerState)
      (pl : List (Nat × Card × Position)) (idx : Nat) (selRow : Option Int)
      (b' : Board) (ps' : List PlayerState) (pl' : List (Nat × Card × Position)),
      (∀ q ∈ l, q.1 ∈ ps.map PlayerState.pid) →
      placeLoop selRow b ps pl l idx = some (b', ps', pl') →
      boardCards b' ∪ stackCards ps' =
        boardCards b ∪ stackCards ps ∪ toPlayCards l ∧
      handCards ps' = handCards ps ∧
      ps'.map PlayerState.pid = ps.map PlayerState.pid ∧
      b'.board.length = b.board.length ∧ b'.rows = b.rows ∧ b'.cols = b.cols := by
  intro l
  induction l with
  | nil =>
    intro b ps pl idx selRow b' ps' pl' _ h
    simp only [placeLoop, Option.some_inj, Prod.mk.injEq] at h
    obtain ⟨h1, h2, _⟩ := h
    subst h1
    subst h2
    refine ⟨?_, rfl, rfl, rfl, rfl, rfl⟩
    simp [toPlayCards]
  | cons q rest ih =>
    intro b ps pl idx selRow b' ps' pl' hmem h
    obtain ⟨pid, card⟩ := q
    simp only [placeLoop] at h
    cases hpl : b.place card (if idx = 0 then selRow else none) with
    | none =>
      rw [hpl] at h
      exact absurd h (by simp)
    | some t =>
      obtain ⟨b1, pos, st⟩ := t
      rw [hpl] at h
      have hpc := place_conserve b card _ b1 pos st hpl
      have hmem0 : pid ∈ ps.map PlayerState.pid :=
        hmem (pid, card) (List.mem_cons_self _ _)
      have hpid1 : (updatePlayer ps pid
          (fun p => { p with stack := p.stack ∪ st })).map PlayerState.pid =
          ps.map PlayerState.pid :=
        updatePlayer_pid_map ps pid _ (fun p => rfl)
      have ihres := ih b1
        (updatePlayer ps pid (fun p => { p with stack := p.stack ∪ st }))
        (setAssoc pl pid (card, pos)) (idx + 1) selRow b' ps' pl'
        (by
          intro q2 hq2
          rw [hpid1]
          exact hmem q2 (List.mem_cons_of_mem _ hq2)) h
      obtain ⟨ih1, ih2, ih3, ih4, ih5, ih6⟩ := ihres
      have hsc : stackCards (updatePlayer ps pid
          (fun p => { p with stack := p.stack ∪ st })) = stackCards ps ∪ st :=
        stackCards_update_union ps pid st hmem0
      refine ⟨?_, ?_, ?_, ?_, ?_, ?_⟩
      · rw [ih1, hsc, toPlayCards_cons]
        have hb1 := Finset.ext_iff.mp hpc.1
        ext x
        have := hb1 x
        simp only [Finset.mem_union, Finset.mem_insert, Finset.mem_singleton] at this ⊢
        tauto
      · rw [ih2, handCards_updatePlayer ps pid
          (fun p => { p with stack := p.stack ∪ st }) (fun p => rfl)]
      · rw [ih3, hpid1]
      · rw [ih4, hpc.2.2.1]
      · rw [ih5, hpc.2.2.2.1]
      · rw [ih6, hpc.2.2.2.2]

/-- Helper: components of a true should_progress. -/
lemma should_progress_spec (s : Session) (h : s.should_progress = true) :
    s.started = true ∧ s.progressed = false ∧
    (s.players.map (fun p => p.pid)).toFinset =
      (s.cards_to_play.map (fun q => q.1)).toFinset := by
  unfold Session.should_progress at h
  simp only [Bool.and_eq_true, decide_eq_true_eq, Bool.not_eq_true'] at h
  exact ⟨h.1.1.1.1, h.1.1.1.2, h.1.1.2⟩

/-- Helper: a successful play conserves the combined card set of board, hands,
stacks and pending submissions. -/
lemma play_conserve (s : Session) (pid : Nat) (card : Card) (s' : Session)
    (h : Session.play s pid card = some (true, s')) :
    sessionCards4 s' = sessionCards4 s := by
  obtain ⟨_, _, hany, ⟨p, hf, hcard⟩, hpl, hctp, hb, _, _, _, _, _, _, _, _, _⟩ :=
    play_success_struct s pid card s' h
  have hp_mem : p ∈ s.players := List.mem_of_find?_eq_some hf
  have hp_pid : p.pid = pid := by
    have := List.find?_some hf
    simpa using this
  have hsetAssoc : setAssoc s.cards_to_play pid card =
      s.cards_to_play ++ [(pid, card)] := by
    unfold setAssoc
    rw [if_neg (by rw [hany]; exact Bool.false_ne_true)]
  unfold sessionCards4 sessionCards3
  rw [hb, hpl, hctp, hsetAssoc]
  have hstk : stackCards (updatePlayer s.players pid
      (fun q => { q with hand := q.hand.erase card })) = stackCards s.players :=
    stackCards_updatePlayer s.players pid _ (fun q => rfl)
  rw [hstk]
  have htp : toPlayCards (s.cards_to_play ++ [(pid, card)]) =
      insert card (toPlayCards s.cards_to_play) := by
    unfold toPlayCards
    rw [List.map_append, List.toFinset_append]
    ext x
    simp [Or.comm]
  rw [htp]
  ext x
  simp only [Finset.mem_union, Finset.mem_insert, mem_handCards]
  constructor
  · rintro (((hx | hx) | hx) | hx)
    · exact Or.inl (Or.inl (Or.inl hx))
    · obtain ⟨p', hp', hxp⟩ := hx
      unfold updatePlayer at hp'
      obtain ⟨p0, hp0, hpe⟩ := List.mem_map.mp hp'
      by_cases hcase : p0.pid = pid
      · rw [if_pos hcase] at hpe
        subst hpe
        simp only [Finset.mem_erase] at hxp
        exact Or.inl (Or.inl (Or.inr ⟨p0, hp0, hxp.2⟩))
      · rw [if_neg hcase] at hpe
        subst hpe
        exact Or.inl (Or.inl (Or.inr ⟨p0, hp0, hxp⟩))
    · exact Or.inl (Or.inr hx)
    · rcases hx with hx | hx
      · subst hx
        exact Or.inl (Or.inl (Or.inr ⟨p, hp_mem, hcard⟩))
      · exact Or.inr hx
  · rintro (((hx | hx) | hx) | hx)
    · exact Or.inl (Or.inl (Or.inl hx))
    · obtain ⟨p0, hp0, hxp⟩ := hx
      by_cases hxc : x = card
      · subst hxc
        exact Or.inr (Or.inl rfl)
      · refine Or.inl (Or.inl (Or.inr ?_))
        refine ⟨if p0.pid = pid then { p0 with hand := p0.hand.erase card } else p0, ?_, ?_⟩
        · unfold updatePlayer
          exact List.mem_map.mpr ⟨p0, hp0, rfl⟩
        · by_cases hcase : p0.pid = pid
          · rw [if_pos hcase]
            exact Finset.mem_erase.mpr ⟨hxc, hxp⟩
          · rw [if_neg hcase]
            exact hxp
    · exact Or.inl (Or.inr hx)
    · exact Or.inr (Or.inr hx)

/-- Helper: a successful progress conserves the combined card set. -/
lemma progress_conserve (s : Session) (s' : Session)
    (h : Session.progress s = some (true, s')) :
    sessionCards4 s' = sessionCards4 s := by
  obtain ⟨hg, b, ps, pl, hloop, hrec⟩ := progress_success_struct s s' h
  have hkeys := (should_progress_spec s hg).2.2
  have hmem : ∀ q ∈ List.insertionSort playLE s.cards_to_play,
      q.1 ∈ s.players.map (fun p => p.pid) := by
    intro q hq
    have hq' : q ∈ s.cards_to_play :=
      (List.perm_insertionSort playLE s.cards_to_play).subset hq
    have : q.1 ∈ (s.cards_to_play.map (fun q => q.1)).toFinset :=
      List.mem_toFinset.mpr (List.mem_map.mpr ⟨q, hq', rfl⟩)
    rw [← hkeys] at this
    exact List.mem_toFinset.mp this
  have hmem' : ∀ q ∈ List.insertionSort playLE s.cards_to_play,
      q.1 ∈ s.players.map PlayerState.pid := hmem
  obtain ⟨h1, h2, _, _, _, _⟩ := placeLoop_conserve _ s.board s.players s.cards_played 0
    s.selected_row b ps pl hmem' hloop
  have htp : toPlayCards (List.insertionSort playLE s.cards_to_play) =
      toPlayCards s.cards_to_play := by
    unfold toPlayCards
    exact List.toFinset_eq_of_perm _ _ ((List.perm_insertionSort playLE s.cards_to_play).map _)
  rw [htp] at h1
  have hfields : s'.board = b ∧ s'.players = ps ∧ s'.cards_to_play = s.cards_to_play := by
    rw [hrec]
    exact ⟨rfl, rfl, rfl⟩
  unfold sessionCards4 sessionCards3
  rw [hfields.1, hfields.2.1, hfields.2.2, h2]
  ext x
  have hx1 := Finset.ext_iff.mp h1 x
  simp only [Finset.mem_union] at hx1 ⊢
  tauto

/-- Helper: reset never touches board, hands or stacks. -/
lemma reset_conserve (s : Session) :
    sessionCards3 (Session.reset s).2 = sessionCards3 s := by
  unfold Session.reset
  split_ifs <;> rfl

/-- Helper: each hand is contained in the union of the hands. -/
lemma hand_subset_handCards {ps : List PlayerState} {p : PlayerState} (hp : p ∈ ps) :
    p.hand ⊆ handCards ps :=
  fun x hx => mem_handCards.mpr ⟨p, hp, hx⟩

/-- Helper: everything dealt in one round: each player in order pops one card
into their hand; sizes grow by one, distinctness and disjointness are kept,
pids and stacks are untouched, and exactly one card per player is consumed. -/
lemma dealToPlayers_inv :
    ∀ (ps : List PlayerState) (deck : List Card) (ps' : List PlayerState)
      (deck' : List Card),
      dealToPlayers ps deck = some (ps', deck') →
      deck.Nodup →
      (∀ p ∈ ps, Disjoint p.hand deck.toFinset) →
      List.Pairwise (fun p q => Disjoint p.hand q.hand) ps →
      deck'.Nodup ∧
      (∀ p ∈ ps', Disjoint p.hand deck'.toFinset) ∧
      List.Pairwise (fun p q => Disjoint p.hand q.hand) ps' ∧
      (∀ k, (∀ p ∈ ps, p.hand.card = k) → (∀ p ∈ ps', p.hand.card = k + 1)) ∧
      ps'.map PlayerState.pid = ps.map PlayerState.pid ∧
      ps'.map PlayerState.stack = ps.map PlayerState.stack ∧
      deck' = deck.drop ps.length ∧
      handCards ps' = handCards ps ∪ (deck.take ps.length).toFinset := by
  intro ps
  induction ps with
  | nil =>
    intro deck ps' deck' h _ _ _
    simp only [dealToPlayers, Option.some_inj, Prod.mk.injEq] at h
    obtain ⟨h1, h2⟩ := h
    subst h1
    subst h2
    refine ⟨by assumption, by simp, by simp, by simp, rfl, rfl, by simp, ?_⟩
    simp [handCards]
  | cons p ps ih =>
    intro deck ps' deck' h hnd hdisj hpair
    cases deck with
    | nil => simp [dealToPlayers] at h
    | cons c d =>
      simp only [dealToPlayers] at h
      cases hrec : dealToPlayers ps d with
      | none => rw [hrec] at h; exact absurd h (by simp)
      | some t =>
        obtain ⟨ps0, d0⟩ := t
        rw [hrec] at h
        simp only [Option.some_inj, Prod.mk.injEq] at h
        obtain ⟨hps', hdeck'⟩ := h
        subst hps'
        subst hdeck'
        have hcd := List.nodup_cons.mp hnd
        have hcmem : (c : Card) ∈ (c :: d).toFinset := by simp
        have hdsub : (d.toFinset : Finset Card) ⊆ (c :: d).toFinset := by
          intro x hx
          rw [List.mem_toFinset] at hx ⊢
          exact List.mem_cons_of_mem _ hx
        have hdisj' : ∀ q ∈ ps, Disjoint q.hand d.toFinset := fun q hq =>
          Finset.disjoint_of_subset_right hdsub
            (hdisj q (List.mem_cons_of_mem _ hq))
        have hpairps := List.pairwise_cons.mp hpair
        obtain ⟨ih1, ih2, ih3, ih4, ih5, ih6, ih7, ih8⟩ :=
          ih d ps0 d0 hrec hcd.2 hdisj' hpairps.2
        have hcnotd : (c : Card) ∉ d.toFinset := by
          rw [List.mem_toFinset]
          exact hcd.1
        have hcnotp : (c : Card) ∉ p.hand :=
          fun hx => Finset.disjoint_left.mp (hdisj p (List.mem_cons_self _ _)) hx hcmem
        have hcnothands : (c : Card) ∉ handCards ps := by
          intro hx
          obtain ⟨q, hq, hxq⟩ := mem_handCards.mp hx
          exact Finset.disjoint_left.mp (hdisj q (List.mem_cons_of_mem _ hq)) hxq hcmem
        have hheaddisj : Disjoint (insert c p.hand) (handCards ps ∪ (d.take ps.length).toFinset) := by
          rw [Finset.disjoint_left]
          intro x hx hx2
          rcases Finset.mem_insert.mp hx with hx | hx
          · subst hx
            rcases Finset.mem_union.mp hx2 with hx2 | hx2
            · exact hcnothands hx2
            · rw [List.mem_toFinset] at hx2
              exact hcd.1 (List.take_subset _ _ hx2)
          · rcases Finset.mem_union.mp hx2 with hx2 | hx2
            · obtain ⟨q, hq, hxq⟩ := mem_handCards.mp hx2
              exact Finset.disjoint_left.mp (hpairps.1 q hq) hx hxq
            · apply Finset.disjoint_left.mp (hdisj p (List.mem_cons_self _ _)) hx
              rw [List.mem_toFinset] at hx2 ⊢
              exact List.mem_cons_of_mem _ (List.take_subset _ _ hx2)
        refine ⟨ih1, ?_, ?_, ?_, ?_, ?_, ?_, ?_⟩
        · intro q hq
          rcases List.mem_cons.mp hq with hq | hq
          · subst hq
            rw [Finset.disjoint_left]
            intro x hx
            simp only [Finset.mem_insert] at hx
            rcases hx with hx | hx
            · subst hx
              intro hmem
              rw [ih7, List.mem_toFinset] at hmem
              exact hcd.1 (List.drop_subset _ _ hmem)
            · intro hmem
              apply Finset.disjoint_left.mp (hdisj p (List.mem_cons_self _ _)) hx
              rw [ih7, List.mem_toFinset] at hmem
              rw [List.mem_toFinset]
              exact List.mem_cons_of_mem _ (List.drop_subset _ _ hmem)
          · exact ih2 q hq
        · rw [List.pairwise_cons]
          refine ⟨?_, ih3⟩
          intro q hq
          have hsub : q.hand ⊆ handCards ps ∪ (d.take ps.length).toFinset := by
            rw [← ih8]
            exact hand_subset_handCards hq
          exact Finset.disjoint_of_subset_right hsub hheaddisj
        · intro k hk
          intro q hq
          rcases List.mem_cons.mp hq with hq | hq
          · subst hq
            simp only [Finset.card_insert_of_not_mem hcnotp]
            rw [hk p (List.mem_cons_self _ _)]
          · exact ih4 k (fun q2 hq2 => hk q2 (List.mem_cons_of_mem _ hq2)) q hq
        · simp only [List.map_cons, ih5]
        · simp only [List.map_cons, ih6]
        · rw [ih7]
          simp
        · simp only [handCards, List.foldr_cons]
          have : handCards ps0 = handCards ps ∪ (d.take ps.length).toFinset := ih8
          rw [show (ps0.foldr (fun p acc => p.hand ∪ acc) ∅ : Finset Card) =
            handCards ps0 from rfl, this]
          simp only [List.length_cons, List.take_succ_cons, List.toFinset_cons]
          show insert c p.hand ∪ (handCards ps ∪ (List.take ps.length d).toFinset) =
            p.hand ∪ handCards ps ∪ insert c (List.take ps.length d).toFinset
          ext x
          simp only [Finset.mem_union, Finset.mem_insert]
          tauto

/-- Helper: everything dealt over the rounds: hands grow by one card per round,
kept distinct and disjoint, pids and stacks untouched, and exactly rounds
times players cards are consumed from the front of the deck. -/
lemma dealRounds_inv :
    ∀ (n : Nat) (ps : List PlayerState) (deck : List Card) (ps' : List PlayerState)
      (deck' : List Card),
      dealRounds n ps deck = some (ps', deck') →
      deck.Nodup →
      (∀ p ∈ ps, Disjoint p.hand deck.toFinset) →
      List.Pairwise (fun p q => Disjoint p.hand q.hand) ps →
      deck'.Nodup ∧
      (∀ p ∈ ps', Disjoint p.hand deck'.toFinset) ∧
      List.Pairwise (fun p q => Disjoint p.hand q.hand) ps' ∧
      (∀ k, (∀ p ∈ ps, p.hand.card = k) → (∀ p ∈ ps', p.hand.card = k + n)) ∧
      ps'.map PlayerState.pid = ps.map PlayerState.pid ∧
      ps'.map PlayerState.stack = ps.map PlayerState.stack ∧
      deck' = deck.drop (n * ps.length) ∧
      handCards ps' = handCards ps ∪ (deck.take (n * ps.length)).toFinset := by
  intro n
  induction n with
  | zero =>
    intro ps deck ps' deck' h hnd hdisj hpair
    simp only [dealRounds, Option.some_inj, Prod.mk.injEq] at h
    obtain ⟨h1, h2⟩ := h
    subst h1
    subst h2
    exact ⟨hnd, hdisj, hpair, fun k hk => by simpa using hk, rfl, rfl, by simp, by simp⟩
  | succ n ih =>
    intro ps deck ps' deck' h hnd hdisj hpair
    simp only [dealRounds] at h
    cases hstep : dealToPlayers ps deck with
    | none => rw [hstep] at h; exact absurd h (by simp)
    | some t =>
      obtain ⟨ps1, deck1⟩ := t
      rw [hstep] at h
      obtain ⟨s1, s2, s3, s4, s5, s6, s7, s8⟩ :=
        dealToPlayers_inv ps deck ps1 deck1 hstep hnd hdisj hpair
      obtain ⟨r1, r2, r3, r4, r5, r6, r7, r8⟩ :=
        ih ps1 deck1 ps' deck' h s1 s2 s3
      have hlen1 : ps1.length = ps.length := by
        have := congrArg List.length s5
        simpa using this
      refine ⟨r1, r2, r3, ?_, by rw [r5, s5], by rw [r6, s6], ?_, ?_⟩
      · intro k hk
        have hmid := s4 k hk
        have := r4 (k + 1) hmid
        intro q hq
        have := this q hq
        omega
      · rw [r7, s7, hlen1, List.drop_drop]
        congr 1
        ring
      · rw [r8, s8, s7, hlen1]
        have htake : deck.take ((n + 1) * ps.length) =
            deck.take ps.length ++ (deck.drop ps.length).take (n * ps.length) := by
          rw [← List.take_add]
          congr 1
          ring
        rw [htake, List.toFinset_append]
        ext x
        simp only [Finset.mem_union]
        tauto

/-- Helper: taking one past an updated index splits into the prefix and the
new entry. -/
lemma take_set_succ {α : Type} :
    ∀ (L : List α) (r : Nat) (v : α), r < L.length →
      (L.set r v).take (r + 1) = L.take r ++ [v] := by
  intro L
  induction L with
  | nil => intro r v h; simp at h
  | cons a t ih =>
    intro r v h
    cases r with
    | zero => simp
    | succ r =>
      simp only [List.set_cons_succ, List.take_succ_cons, List.cons_append,
        List.cons.injEq, true_and]
      exact ih r v (by simpa using h)

/-- Helper: the board-filling loop of the deal: rows from the starting index on
become singleton rows of the next cards in order, and the shape is kept. -/
lemma dealBoardRows_inv :
    ∀ (n : Nat) (b : Board) (deck : List Card) (r : Nat) (b' : Board)
      (deck' : List Card),
      dealBoardRows b deck r n = some (b', deck') →
      r + n = b.board.length →
      b'.board = b.board.take r ++ (deck.take n).map (fun c => [c]) ∧
      deck' = deck.drop n ∧ b'.rows = b.rows ∧ b'.cols = b.cols ∧
      n ≤ deck.length := by
  intro n
  induction n with
  | zero =>
    intro b deck r b' deck' h hr
    simp only [dealBoardRows, Option.some_inj, Prod.mk.injEq] at h
    obtain ⟨h1, h2⟩ := h
    subst h1
    subst h2
    refine ⟨?_, by simp, rfl, rfl, by simp⟩
    have hre : r = b.board.length := by omega
    rw [hre, List.take_length]
    simp
  | succ n ih =>
    intro b deck r b' deck' h hr
    cases deck with
    | nil => simp [dealBoardRows] at h
    | cons c d =>
      simp only [dealBoardRows] at h
      have hrlt : r < b.board.length := by omega
      have hev : b.place c (some (r : Int)) =
          some ({ b with board := b.board.set r [c] }, ⟨(r : Int), 0⟩,
                (b.board.getD r []).toFinset) := by
        simp [Board.place, Board._sweep, pyIdx_coe b.board.length r hrlt]
      rw [hev] at h
      have hstep : r + 1 + n = ({ b with board := b.board.set r [c] } : Board).board.length := by
        simp
        omega
      obtain ⟨r1, r2, r3, r4, r5⟩ := ih _ d (r + 1) b' deck' h hstep
      refine ⟨?_, by rw [r2]; rfl, r3, r4, by simpa using Nat.succ_le_succ r5⟩
      rw [r1]
      simp only [List.take_succ_cons, List.map_cons]
      rw [take_set_succ b.board r [c] hrlt]
      simp

/-- Helper: components of a true should_start. -/
lemma should_start_spec (s : Session) (h : s.should_start = true) :
    s.min_players ≤ s.players.length ∧ s.players.length ≤ s.max_players ∧
    (∀ p ∈ s.players, p.hand = ∅) ∧ (∀ row ∈ s.board.board, row = []) ∧
    s.started = false := by
  unfold Session.should_start at h
  simp only [Bool.and_eq_true, Bool.not_eq_true', decide_eq_false_iff_not,
    Nat.not_lt, List.any_eq_false, Bool.not_eq_true] at h
  obtain ⟨⟨⟨⟨h1, h2⟩, h3⟩, h4⟩, h5⟩ := h
  refine ⟨by omega, by omega, ?_, ?_, h5⟩
  · intro p hp
    have := h3 p hp
    simp only [decide_eq_false_iff_not, Nat.not_lt, Nat.le_zero] at this
    exact Finset.card_eq_zero.mp this
  · intro row hrow
    have := h4 row hrow
    simp only [decide_eq_false_iff_not, Nat.not_lt, Nat.le_zero,
      List.length_eq_zero] at this
    exact this

/-- Helper: structure of a successful start. -/
lemma start_success_struct (s : Session) (deck : List Card) (s' : Session)
    (h : Session.start s deck = some (true, s')) :
    s.should_start = true ∧
    ∃ ps1 deck1 b1 deck2,
      dealRounds s.cards_per_player s.players deck = some (ps1, deck1) ∧
      dealBoardRows s.board deck1 0 s.board.rows = some (b1, deck2) ∧
      s' = { s with players := ps1, board := b1, started := true } := by
  unfold Session.start Session._deal at h
  by_cases hg : s.should_start
  · simp only [hg, Bool.not_true, Bool.false_eq_true, if_false] at h
    cases h1 : dealRounds s.cards_per_player s.players deck with
    | none => rw [h1] at h; exact absurd h (by simp)
    | some t1 =>
      obtain ⟨ps1, deck1⟩ := t1
      rw [h1] at h
      dsimp only at h
      cases h2 : dealBoardRows s.board deck1 0 s.board.rows with
      | none => rw [h2] at h; exact absurd h (by simp)
      | some t2 =>
        obtain ⟨b1, deck2⟩ := t2
        rw [h2] at h
        dsimp only at h
        simp only [Option.some_inj, Prod.mk.injEq, true_and] at h
        exact ⟨hg, ps1, deck1, b1, deck2, rfl, h2, h.symm⟩
  · simp [hg] at h

/-- Helper: the possible outcomes of add. -/
lemma add_result (s : Session) (p : PlayerState) :
    (Session.add s p).2 = s ∨
    ((Session.add s p).2 = { s with players := s.players ++ [p] } ∧
      s.started = false) := by
  unfold Session.add
  split_ifs with h1 h2 h3
  · exact Or.inl rfl
  · exact Or.inl rfl
  · exact Or.inl rfl
  · exact Or.inr ⟨rfl, by simpa using h1⟩

/-- Helper: the possible outcomes of remove. -/
lemma remove_result (s : Session) (pid : Nat) :
    (Session.remove s pid).2 = s ∨
    (Session.remove s pid).2 =
      { s with players := s.players.filter (fun q => q.pid ≠ pid) } := by
  unfold Session.remove
  split_ifs with h
  · exact Or.inr rfl
  · exact Or.inl rfl

/-- Helper: the possible outcomes of reset. -/
lemma reset_result (s : Session) :
    (Session.reset s).2 = s ∨
    (Session.reset s).2 = { s with smallest_card_player := none,
                                   selected_row := none,
                                   cards_to_play := [],
                                   cards_played := [],
                                   progressed := false } := by
  unfold Session.reset
  split_ifs with h
  · exact Or.inl rfl
  · exact Or.inr rfl

/-- Invariant carried by every reachable session: the board row list has
exactly the declared number of rows, and before the start the stacks and the
pending submissions are empty. -/
def SessionInv (s : Session) : Prop :=
  s.board.board.length = s.board.rows ∧
  (s.started = false → (∀ p ∈ s.players, p.stack = ∅) ∧ s.cards_to_play = [])

/-- Helper: every reachable session satisfies the invariant. -/
lemma reachable_inv : ∀ (s : Session), Reachable s → SessionInv s := by
  intro s hreach
  induction hreach with
  | init sid =>
    refine ⟨by simp [initSession, mkBoard], fun _ => ⟨by intro p hp; simp [initSession] at hp, rfl⟩⟩
  | add p hr hhand hstack heq ih =>
    rename_i s0 r
    subst heq
    rcases add_result s0 p with hcase | ⟨hcase, hstarted⟩
    · rw [hcase]; exact ih
    · rw [hcase]
      refine ⟨ih.1, fun hst => ⟨?_, (ih.2 hst).2⟩⟩
      intro q hq
      rcases List.mem_append.mp hq with hq | hq
      · exact (ih.2 hst).1 q hq
      · rw [List.mem_singleton.mp hq]
        exact hstack
  | remove pid hr heq ih =>
    rename_i s0 r
    subst heq
    rcases remove_result s0 pid with hcase | hcase <;> rw [hcase]
    · exact ih
    · exact ⟨ih.1, fun hst => ⟨fun q hq => (ih.2 hst).1 q (List.mem_of_mem_filter hq),
        (ih.2 hst).2⟩⟩
  | start deck hr hperm heq ih =>
    rename_i s0 b s1
    cases b with
    | false =>
      rw [start_false_eq s0 deck s1 heq]
      exact ih
    | true =>
      obtain ⟨hg, ps1, deck1, b1, deck2, h1, h2, hrec⟩ :=
        start_success_struct s0 deck s1 heq
      obtain ⟨r1, _, r3, _, r5⟩ := dealBoardRows_inv s0.board.rows s0.board deck1 0
        b1 deck2 h2 (by rw [ih.1]; omega)
      subst hrec
      constructor
      · show b1.board.length = b1.rows
        rw [r1, r3]
        simp only [List.take_zero, List.nil_append, List.length_map, List.length_take]
        omega
      · intro hst
        simp at hst
  | play pid card hr heq ih =>
    rename_i s0 b s1
    cases b with
    | false =>
      rw [play_false_eq s0 pid card s1 heq]
      exact ih
    | true =>
      obtain ⟨hstart, _, _, _, _, hctp, hb, hst, _, _, _, _, _, _, _, _⟩ :=
        play_success_struct s0 pid card s1 heq
      refine ⟨by rw [hb]; exact ih.1, fun hco => ?_⟩
      rw [hst] at hco
      cases hco
  | select pid row hr heq ih =>
    rename_i s0 r
    subst heq
    rw [select_always_false s0 pid row]
    exact ih
  | progress hr heq ih =>
    rename_i s0 b s1
    cases b with
    | false =>
      rw [progress_false_eq s0 s1 heq]
      exact ih
    | true =>
      obtain ⟨hg, b2, ps2, pl2, hloop, hrec⟩ := progress_success_struct s0 s1 heq
      have hkeys := should_progress_spec s0 hg
      have hmem : ∀ q ∈ List.insertionSort playLE s0.cards_to_play,
          q.1 ∈ s0.players.map PlayerState.pid := by
        intro q hq
        have hq' : q ∈ s0.cards_to_play :=
          (List.perm_insertionSort playLE s0.cards_to_play).subset hq
        have : q.1 ∈ (s0.cards_to_play.map (fun q => q.1)).toFinset :=
          List.mem_toFinset.mpr (List.mem_map.mpr ⟨q, hq', rfl⟩)
        rw [← hkeys.2.2] at this
        exact List.mem_toFinset.mp this
      obtain ⟨_, _, _, hlen, hrows, _⟩ := placeLoop_conserve _ s0.board s0.players
        s0.cards_played 0 s0.selected_row b2 ps2 pl2 hmem hloop
      subst hrec
      constructor
      · show b2.board.length = b2.rows
        rw [hlen, hrows, ih.1]
      · intro hst
        simp only at hst
        rw [hst] at hkeys
        exact absurd hkeys.1 (by simp)
  | reset hr heq ih =>
    rename_i s0 r
    subst heq
    rcases reset_result s0 with hcase | hcase <;> rw [hcase]
    · exact ih
    · exact ⟨ih.1, fun hst => ⟨fun q hq => (ih.2 hst).1 q hq, rfl⟩⟩

/-- Helper: empty hands give an empty hand union. -/
lemma handCards_eq_empty {ps : List PlayerState} (h : ∀ p ∈ ps, p.hand = ∅) :
    handCards ps = ∅ := by
  rw [Finset.eq_empty_iff_forall_not_mem]
  intro x hx
  obtain ⟨p, hp, hxp⟩ := mem_handCards.mp hx
  rw [h p hp] at hxp
  exact absurd hxp (Finset.not_mem_empty x)

/-- Helper: empty stacks give an empty stack union. -/
lemma stackCards_eq_empty {ps : List PlayerState} (h : ∀ p ∈ ps, p.stack = ∅) :
    stackCards ps = ∅ := by
  rw [Finset.eq_empty_iff_forall_not_mem]
  intro x hx
  obtain ⟨p, hp, hxp⟩ := mem_stackCards.mp hx
  rw [h p hp] at hxp
  exact absurd hxp (Finset.not_mem_empty x)

/-- Helper: a board of singleton rows carries exactly those cards. -/
lemma boardCards_map_singleton (l : List Card) :
    (l.map (fun c => [c])).foldr (fun row acc => row.toFinset ∪ acc)
      (∅ : Finset Card) = l.toFinset := by
  induction l with
  | nil => rfl
  | cons c t ih =>
    simp only [List.map_cons, List.foldr_cons, ih, List.toFinset_cons]
    ext x
    simp

/-- Helper: a successful start from a reachable session fills board, hands and
turn buffers with exactly the first dealt cards of the shuffled deck. -/
lemma start_conserve (s : Session) (deck : List Card) (s' : Session)
    (hr : Reachable s) (hnd : deck.Nodup)
    (h : Session.start s deck = some (true, s')) :
    sessionCards4 s' =
      (deck.take (s.cards_per_player * s.players.length + s.board.rows)).toFinset := by
  obtain ⟨hg, ps1, deck1, b1, deck2, h1, h2, hrec⟩ := start_success_struct s deck s' h
  obtain ⟨hmin, hmax, hhands, hrows, hstarted⟩ := should_start_spec s hg
  have hinv := reachable_inv s hr
  have hstacks : ∀ p ∈ s.players, p.stack = ∅ := (hinv.2 hstarted).1
  have htoplay : s.cards_to_play = [] := (hinv.2 hstarted).2
  obtain ⟨d1, d2, d3, d4, d5, d6, d7, d8⟩ := dealRounds_inv s.cards_per_player
    s.players deck ps1 deck1 h1 hnd
    (fun p hp => by rw [hhands p hp]; exact Finset.disjoint_empty_left _)
    (by
      have : ∀ (l : List PlayerState), (∀ p ∈ l, p.hand = ∅) →
          List.Pairwise (fun p q : PlayerState => Disjoint p.hand q.hand) l := by
        intro l
        induction l with
        | nil => intro _; exact List.Pairwise.nil
        | cons p t ih =>
          intro hall
          rw [List.pairwise_cons]
          refine ⟨fun q _ => ?_, ih (fun q hq => hall q (List.mem_cons_of_mem _ hq))⟩
          rw [hall p (List.mem_cons_self _ _)]
          exact Finset.disjoint_empty_left _
      exact this s.players hhands)
  obtain ⟨r1, r2, r3, r4, r5⟩ := dealBoardRows_inv s.board.rows s.board deck1 0
    b1 deck2 h2 (by rw [hinv.1]; omega)
  have hps1stacks : ∀ p ∈ ps1, p.stack = ∅ := by
    intro p hp
    have : p.stack ∈ ps1.map PlayerState.stack := List.mem_map.mpr ⟨p, hp, rfl⟩
    rw [d6] at this
    obtain ⟨q, hq, hqe⟩ := List.mem_map.mp this
    rw [← hqe]
    exact hstacks q hq
  have hfields : s'.board = b1 ∧ s'.players = ps1 ∧
      s'.cards_to_play = s.cards_to_play := by
    rw [hrec]
    exact ⟨rfl, rfl, rfl⟩
  unfold sessionCards4 sessionCards3
  rw [hfields.1, hfields.2.1, hfields.2.2, htoplay]
  have hbc : boardCards b1 = (deck1.take s.board.rows).toFinset := by
    unfold boardCards
    rw [r1]
    simp only [List.take_zero, List.nil_append]
    exact boardCards_map_singleton _
  have hhc : handCards ps1 =
      (deck.take (s.cards_per_player * s.players.length)).toFinset := by
    rw [d8, handCards_eq_empty hhands]
    simp
  rw [hbc, hhc, stackCards_eq_empty hps1stacks, d7]
  have htake : deck.take (s.cards_per_player * s.players.length + s.board.rows) =
      deck.take (s.cards_per_player * s.players.length) ++
        (deck.drop (s.cards_per_player * s.players.length)).take s.board.rows := by
    rw [← List.take_add]
  rw [htake, List.toFinset_append]
  ext x
  simp only [Finset.mem_union, Finset.union_empty, toPlayCards, List.map_nil,
    List.toFinset_nil, Finset.not_mem_empty, or_false]
  tauto

/-- Concrete two-player lobby reached by hosting and one join. -/
def s2a : Session := (Session.add (initSession "x") ⟨7, ∅, ∅⟩).2

def s2b : Session := (Session.add s2a ⟨9, ∅, ∅⟩).2

/-- Concrete session right after a successful two-player start on the
identity-ordered deck. -/
def s2start : Session := ((Session.start s2b deckList).getD (false, s2b)).2

/-- Helper: the two-player lobby is reachable. -/
lemma reachable_s2b : Reachable s2b :=
  Reachable.add ⟨9, ∅, ∅⟩
    (Reachable.add ⟨7, ∅, ∅⟩ (Reachable.init "x") rfl rfl rfl) rfl rfl rfl

set_option maxRecDepth 100000 in
/-- Helper: the started two-player session is reachable. -/
lemma reachable_s2start : Reachable s2start :=
  @Reachable.start s2b deckList true s2start reachable_s2b (List.Perm.refl deckList)
    (by decide)

/-- C7 theorem: after every successful start from a reachable session with a
duplicate-free deck, every player holds exactly cards_per_player cards, every
board row holds exactly one card, hands are pairwise disjoint and disjoint
from the board, and the session is started. -/
theorem start_post (s : Session) (deck : List Card) (s' : Session)
    (hr : Reachable s) (hnd : deck.Nodup)
    (h : Session.start s deck = some (true, s')) :
    (∀ p ∈ s'.players, p.hand.card = s.cards_per_player) ∧
    (∀ row ∈ s'.board.board, row.length = 1) ∧
    List.Pairwise (fun p q => Disjoint p.hand q.hand) s'.players ∧
    (∀ p ∈ s'.players, Disjoint p.hand (boardCards s'.board)) ∧
    s'.started = true := by
  obtain ⟨hg, ps1, deck1, b1, deck2, h1, h2, hrec⟩ := start_success_struct s deck s' h
  obtain ⟨hmin, hmax, hhands, hrows, hstarted⟩ := should_start_spec s hg
  have hinv := reachable_inv s hr
  have hpairwise0 : List.Pairwise (fun p q : PlayerState => Disjoint p.hand q.hand)
      s.players := by
    have : ∀ (l : List PlayerState), (∀ p ∈ l, p.hand = ∅) →
        List.Pairwise (fun p q : PlayerState => Disjoint p.hand q.hand) l := by
      intro l
      induction l with
      | nil => intro _; exact List.Pairwise.nil
      | cons p t ih =>
        intro hall
        rw [List.pairwise_cons]
        refine ⟨fun q _ => ?_, ih (fun q hq => hall q (List.mem_cons_of_mem _ hq))⟩
        rw [hall p (List.mem_cons_self _ _)]
        exact Finset.disjoint_empty_left _
    exact this s.players hhands
  obtain ⟨d1, d2, d3, d4, d5, d6, d7, d8⟩ := dealRounds_inv s.cards_per_player
    s.players deck ps1 deck1 h1 hnd
    (fun p hp => by rw [hhands p hp]; exact Finset.disjoint_empty_left _) hpairwise0
  obtain ⟨r1, r2, r3, r4, r5⟩ := dealBoardRows_inv s.board.rows s.board deck1 0
    b1 deck2 h2 (by rw [hinv.1]; omega)
  have hfields : s'.players = ps1 ∧ s'.board = b1 ∧ s'.started = true := by
    rw [hrec]
    exact ⟨rfl, rfl, rfl⟩
  refine ⟨?_, ?_, ?_, ?_, hfields.2.2⟩
  · intro p hp
    rw [hfields.1] at hp
    have := d4 0 (fun q hq => by rw [hhands q hq]; exact Finset.card_empty) p hp
    omega
  · intro row hrow
    rw [hfields.2.1, r1] at hrow
    simp only [List.take_zero, List.nil_append] at hrow
    obtain ⟨c, _, hce⟩ := List.mem_map.mp hrow
    rw [← hce]
    rfl
  · rw [hfields.1]
    exact d3
  · intro p hp
    rw [hfields.1] at hp
    rw [hfields.2.1]
    have hbc : boardCards b1 = (deck1.take s.board.rows).toFinset := by
      unfold boardCards
      rw [r1]
      simp only [List.take_zero, List.nil_append]
      exact boardCards_map_singleton _
    rw [hbc]
    apply Finset.disjoint_of_subset_right _ (d2 p hp)
    intro x hx
    rw [List.mem_toFinset] at hx ⊢
    exact List.take_subset _ _ hx

set_option maxRecDepth 100000 in
/-- Witness for C7: the concrete two-player start leaves a started session. -/
theorem start_post_witness : s2start.started = true :=
  (start_post s2b deckList s2start reachable_s2b (by decide) (by decide)).2.2.2.2

set_option maxRecDepth 100000 in
/-- C2 counterexample: a reachable started session (two players) whose board,
hands and stacks together hold 24 cards, not the full 104-card deck. -/
theorem conservation_full_deck_counterexample :
    Reachable s2start ∧ s2start.started = true ∧ sessionCards3 s2start ≠ fullDeck :=
  ⟨reachable_s2start, by decide, by decide⟩

/-- C2 amended: after a successful start from a reachable state the union of
board, hands, stacks and pending submissions equals the dealt prefix of the
shuffled deck (players times cards_per_player hand cards plus one card per
row), and this union is preserved exactly by every successful play and
progress and by select; reset clears only turn buffers and preserves the
board-hands-stacks union. -/
theorem conservation_amended :
    (∀ (s : Session) (pid : Nat) (card : Card) (s' : Session),
      Session.play s pid card = some (true, s') →
      sessionCards4 s' = sessionCards4 s) ∧
    (∀ (s : Session) (pid : Nat) (row : Int),
      sessionCards4 (Session.select s pid row).2 = sessionCards4 s) ∧
    (∀ (s : Session) (s' : Session), Session.progress s = some (true, s') →
      sessionCards4 s' = sessionCards4 s) ∧
    (∀ s : Session, sessionCards3 (Session.reset s).2 = sessionCards3 s) ∧
    (∀ (s : Session) (deck : List Card) (s' : Session),
      Reachable s → deck.Nodup → Session.start s deck = some (true, s') →
      sessionCards4 s' =
        (deck.take (s.cards_per_player * s.players.length + s.board.rows)).toFinset) :=
  ⟨play_conserve,
   fun s pid row => by rw [select_always_false s pid row],
   progress_conserve, reset_conserve, start_conserve⟩

set_option maxRecDepth 100000 in
/-- Witness for the amended C2: the concrete two-player start dealt exactly the
first 24 cards of the deck. -/
theorem conservation_amended_witness :
    sessionCards4 s2start =
      (deckList.take (s2b.cards_per_player * s2b.players.length + s2b.board.rows)).toFinset :=
  conservation_amended.2.2.2.2 s2b deckList s2start reachable_s2b (by decide) (by decide)

/-- Helper: a nonnegative in-range Python index maps to its toNat. -/
lemma pyIdx_nonneg (n : Nat) (i : Int) (h0 : 0 ≤ i) (h1 : i < (n : Int)) :
    pyIdx n i = some i.toNat := by
  unfold pyIdx
  dsimp only
  rw [if_neg (by omega : ¬(i < 0))]
  rw [if_pos ⟨by omega, by omega⟩]

/-- Helper: updating a row with a non-empty value keeps all rows non-empty. -/
lemma set_rows_nonempty (L : List (List Card)) (r : Nat) (v : List Card)
    (hne : ∀ row ∈ L, row ≠ []) (hv : v ≠ []) :
    ∀ row ∈ L.set r v, row ≠ [] := by
  intro row hrow
  by_cases hr : r < L.length
  · rw [list_set_decomp L r v hr] at hrow
    rcases List.mem_append.mp hrow with h | h
    · exact hne row (List.take_subset _ _ h)
    · rcases List.mem_cons.mp h with h | h
      · rw [h]; exact hv
      · exact hne row (List.drop_subset _ _ h)
  · rw [List.set_eq_of_length_le (by omega)] at hrow
    exact hne row hrow

/-- Helper: reading back an updated row. -/
lemma getD_set_self (L : List (List Card)) (r : Nat) (v : List Card)
    (h : r < L.length) : (L.set r v).getD r [] = v := by
  rw [List.getD_eq_getElem _ [] (by simpa using h), List.getElem_set_self]

/-- Helper: a placement with an explicitly selected in-range row always
succeeds, keeps the shape and the non-emptiness of the rows, and leaves the
placed card as the tail of that row. -/
lemma place_explicit_succeeds (b : Board) (card : Card) (r : Int)
    (hne : ∀ row ∈ b.board, row ≠ [])
    (h0 : 0 ≤ r) (h1 : r < (b.board.length : Int)) :
    ∃ b' pos st, b.place card (some r) = some (b', pos, st) ∧
      b'.board.length = b.board.length ∧ (∀ row ∈ b'.board, row ≠ []) ∧
      r.toNat < b'.board.length ∧
      (b'.board.getD r.toNat []).getLast? = some card := by
  have hev : b.place card (some r) =
      some ({ b with board := b.board.set r.toNat [card] }, ⟨r, 0⟩,
            (b.board.getD r.toNat []).toFinset) := by
    simp [Board.place, Board._sweep, pyIdx_nonneg b.board.length r h0 h1]
  refine ⟨_, _, _, hev, by simp, ?_, ?_, ?_⟩
  · exact set_rows_nonempty b.board r.toNat [card] hne (by simp)
  · simp
    omega
  · rw [show ({ b with board := b.board.set r.toNat [card] } : Board).board =
      b.board.set r.toNat [card] from rfl]
    rw [getD_set_self b.board r.toNat [card] (by omega)]
    rfl

/-- Helper: an automatic placement always succeeds whenever some row tail is
strictly below the card; it keeps the shape and the non-emptiness of the rows,
and leaves the placed card as the tail of some row. -/
lemma place_auto_succeeds (b : Board) (card : Card)
    (hne : ∀ row ∈ b.board, row ≠ [])
    (hqual : ∃ j t, j < b.board.length ∧ (b.board.getD j []).getLast? = some t ∧
      t.value < card.value) :
    ∃ b' pos st i, b.place card none = some (b', pos, st) ∧
      b'.board.length = b.board.length ∧ (∀ row ∈ b'.board, row ≠ []) ∧
      i < b'.board.length ∧ (b'.board.getD i []).getLast? = some card := by
  obtain ⟨o, ho, hchar⟩ := whereRow_spec b card hne
  obtain ⟨j, t, hj, ht, hlt⟩ := hqual
  rcases hchar with ⟨hnone, hall⟩ | ⟨i, hoi, hi, ti, hti, hlti, _⟩
  · exact absurd hlt (by simpa using hall j t hj ht)
  · subst hoi
    by_cases hcol : b.cols ≤ (b.board.getD i []).length
    · have hev : b.place card none =
          some ({ b with board := b.board.set i [card] }, ⟨(i : Int), 0⟩,
                (b.board.getD i []).toFinset) := by
        unfold Board.place
        dsimp only
        rw [ho]
        dsimp only
        rw [if_pos hcol]
        unfold Board._sweep
        rw [pyIdx_coe b.board.length i hi]
      refine ⟨_, _, _, i, hev, by simp, ?_, by simpa using hi, ?_⟩
      · exact set_rows_nonempty b.board i [card] hne (by simp)
      · rw [show ({ b with board := b.board.set i [card] } : Board).board =
          b.board.set i [card] from rfl]
        rw [getD_set_self b.board i [card] hi]
        rfl
    · have hev : b.place card none =
          some ({ b with board := b.board.set i (b.board.getD i [] ++ [card]) },
                ⟨(i : Int), (b.board.getD i []).length⟩, ∅) := by
        unfold Board.place
        dsimp only
        rw [ho]
        dsimp only
        rw [if_neg hcol]
      refine ⟨_, _, _, i, hev, by simp, ?_, by simpa using hi, ?_⟩
      · exact set_rows_nonempty b.board i (b.board.getD i [] ++ [card]) hne (by simp)
      · rw [show ({ b with board := b.board.set i (b.board.getD i [] ++ [card]) } :
          Board).board = b.board.set i (b.board.getD i [] ++ [card]) from rfl]
        rw [getD_set_self b.board i (b.board.getD i [] ++ [card]) hi]
        exact List.getLast?_concat _

/-- Helper: the automatic tail of the resolution loop never fails on strictly
ascending cards once some row tail is below every remaining card. -/
lemma autoResolve_total :
    ∀ (l : List (Nat × Card)) (b : Board) (ps : List PlayerState)
      (pl : List (Nat × Card × Position)),
      (∀ row ∈ b.board, row ≠ []) →
      List.Pairwise (fun a c : Nat × Card => a.2.value < c.2.value) l →
      (l = [] ∨ ∃ j t, j < b.board.length ∧
        (b.board.getD j []).getLast? = some t ∧ ∀ q ∈ l, t.value < q.2.value) →
      ∃ out, autoResolve b ps pl l = some out := by
  intro l
  induction l with
  | nil => intro b ps pl _ _ _; exact ⟨(b, ps, pl), rfl⟩
  | cons q rest ih =>
    intro b ps pl hne hpair hinv
    obtain ⟨pid, card⟩ := q
    rcases hinv with hinv | ⟨j, t, hj, ht, hall⟩
    · cases hinv
    · obtain ⟨b', pos, st, i, hplace, hlen, hne', hi, htail⟩ :=
        place_auto_succeeds b card hne
          ⟨j, t, hj, ht, hall (pid, card) (List.mem_cons_self _ _)⟩
      have hrest := ih b'
        (updatePlayer ps pid (fun p => { p with stack := p.stack ∪ st }))
        (setAssoc pl pid (card, pos)) hne' (List.pairwise_cons.mp hpair).2
        (Or.inr ⟨i, card, hi, htail,
          fun q2 hq2 => (List.pairwise_cons.mp hpair).1 q2 hq2⟩)
      obtain ⟨out, hout⟩ := hrest
      refine ⟨out, ?_⟩
      simp only [autoResolve]
      rw [hplace]
      exact hout

/-- C10: under the conditions the claim names (the session is ready to
progress, the selected row when present is a valid index, and otherwise some
row tail lies strictly below every submitted card), with distinct submitted
values and a well-shaped board of non-empty rows, progress never hits the
out-of-range sentinel of Board.where nor an out-of-range row: every placement
finds a target and the whole resolution succeeds. -/
theorem progress_no_sentinel (s : Session)
    (hg : s.should_progress = true)
    (hshape : s.board.board.length = s.board.rows)
    (hne : ∀ row ∈ s.board.board, row ≠ [])
    (hnodup : (s.cards_to_play.map (fun q => q.2.value)).Nodup)
    (hsel : ∀ r : Int, s.selected_row = some r → s.board.is_valid r = true)
    (hlow : s.selected_row = none → s.cards_to_play ≠ [] →
      ∃ j t, j < s.board.board.length ∧
        (s.board.board.getD j []).getLast? = some t ∧
        ∀ q ∈ s.cards_to_play, t.value < q.2.value) :
    ∃ s', Session.progress s = some (true, s') := by
  have hsorted := List.sorted_insertionSort playLE s.cards_to_play
  have hperm := List.perm_insertionSort playLE s.cards_to_play
  have hn1 : ((List.insertionSort playLE s.cards_to_play).map
      (fun q => q.2.value)).Nodup :=
    ((hperm.map (fun q => q.2.value)).nodup_iff).mpr hnodup
  have hstrict := sorted_nodup_strict _ hsorted hn1
  have hmain : ∃ out, specResolve s.selected_row s.board s.players s.cards_played
      (List.insertionSort playLE s.cards_to_play) = some out := by
    cases hl : List.insertionSort playLE s.cards_to_play with
    | nil => exact ⟨(s.board, s.players, s.cards_played), rfl⟩
    | cons q rest =>
      obtain ⟨pid, card⟩ := q
      rw [hl] at hstrict
      have hfirst : ∃ b' pos st i, s.board.place card s.selected_row =
          some (b', pos, st) ∧ b'.board.length = s.board.board.length ∧
          (∀ row ∈ b'.board, row ≠ []) ∧ i < b'.board.length ∧
          (b'.board.getD i []).getLast? = some card := by
        cases hselv : s.selected_row with
        | some r =>
          have hval := hsel r hselv
          unfold Board.is_valid at hval
          simp only [Bool.and_eq_true, decide_eq_true_eq] at hval
          have h1 : r < (s.board.board.length : Int) := by
            rw [hshape]
            omega
          obtain ⟨b', pos, st, hplace, hlen, hne', hi, htail⟩ :=
            place_explicit_succeeds s.board card r hne hval.1 h1
          exact ⟨b', pos, st, r.toNat, hplace, hlen, hne', hi, htail⟩
        | none =>
          have hnonempty : s.cards_to_play ≠ [] := by
            intro hnil
            rw [hnil] at hl
            simp [List.insertionSort] at hl
          obtain ⟨j, t, hj, ht, hall⟩ := hlow hselv hnonempty
          have hhead : (pid, card) ∈ s.cards_to_play := by
            have : (pid, card) ∈ List.insertionSort playLE s.cards_to_play := by
              rw [hl]
              exact List.mem_cons_self _ _
            exact hperm.subset this
          obtain ⟨b', pos, st, i, hplace, hlen, hne', hi, htail⟩ :=
            place_auto_succeeds s.board card hne ⟨j, t, hj, ht, hall _ hhead⟩
          exact ⟨b', pos, st, i, hplace, hlen, hne', hi, htail⟩
      obtain ⟨b', pos, st, i, hplace, hlen, hne', hi, htail⟩ := hfirst
      obtain ⟨out, hout⟩ := autoResolve_total rest b'
        (updatePlayer s.players pid (fun p => { p with stack := p.stack ∪ st }))
        (setAssoc s.cards_played pid (card, pos)) hne'
        (List.pairwise_cons.mp hstrict).2
        (Or.inr ⟨i, card, hi, htail,
          fun q2 hq2 => (List.pairwise_cons.mp hstrict).1 q2 hq2⟩)
      refine ⟨out, ?_⟩
      simp only [specResolve]
      rw [hplace]
      exact hout
  obtain ⟨out, hout⟩ := hmain
  obtain ⟨b2, ps2, pl2⟩ := out
  refine ⟨{ s with board := b2, players := ps2, cards_played := pl2, progressed := true }, ?_⟩
  unfold Session.progress
  rw [hg]
  simp only [Bool.not_true, Bool.false_eq_true, if_false]
  rw [placeLoop_zero, hout]

/-- Witness for C10: the concrete ready session resolves successfully. -/
theorem progress_no_sentinel_witness :
    ∃ s', Session.progress sProg = some (true, s') :=
  progress_no_sentinel sProg (by decide) (by decide) (by decide) (by decide)
    (by intro r h; cases h; decide)
    (by intro h; cases h)
